import Mathlib

/-!
Verification of the replicon identity resolution scripts of the Bb_pangenome
repository: `compare_calls.py` (pairwise call comparison and homogenization),
`add_replicon_to_gml.py` (per-cluster consensus and family diversity), and
`generate_chromosome_lists.py` (per-assembly replicon placement).

Python strings are modelled as lists of Unicode code points (`PyStr`), so that
`str.lower`, `str.strip` and the ad-hoc splitting done by the scripts can be
modelled character by character.  Exceptions raised by the scripts are modelled
with `Except PyExn`.
-/

/-- A Python string, as its list of Unicode code points. -/
abbrev PyStr := List Nat

/-- Code points of a Lean string literal, used to write concrete inputs. -/
def codes (s : String) : PyStr := s.data.map Char.toNat

/-- The whitespace characters stripped by Python `str.strip()` (ASCII range). -/
def isPySpace (c : Nat) : Bool := c = 32 || c = 9 || c = 10 || c = 13 || c = 11 || c = 12

/-- Remove leading whitespace. -/
def stripLeft (s : PyStr) : PyStr := s.dropWhile isPySpace

/-- Remove trailing whitespace. -/
def stripRight (s : PyStr) : PyStr := (s.reverse.dropWhile isPySpace).reverse

/-- Python `str.strip()`. -/
def pyStrip (s : PyStr) : PyStr := stripRight (stripLeft s)

/-- Python `str.lower()` on one character (the calls handled by the scripts are ASCII). -/
def lowerChar (c : Nat) : Nat := if 65 ≤ c ∧ c ≤ 90 then c + 32 else c

/-- Python `str.lower()`. -/
def pyLower (s : PyStr) : PyStr := s.map lowerChar

/-- Exceptions that the modelled code can raise. -/
inductive PyExn
  | nameError
  | indexError
deriving DecidableEq, Repr

instance {ε α : Type} [DecidableEq ε] [DecidableEq α] : DecidableEq (Except ε α) := fun a b =>
  match a, b with
  | .ok x, .ok y => if h : x = y then .isTrue (by rw [h]) else .isFalse (by simp [h])
  | .error e, .error f => if h : e = f then .isTrue (by rw [h]) else .isFalse (by simp [h])
  | .ok _, .error _ => .isFalse (by simp)
  | .error _, .ok _ => .isFalse (by simp)

/-! ## compare_calls.py -/

/-- The values collapsed to the empty sentinel by `normalize_call`
(the tuple `("na", "nan", "none", "", "unclassified")`). -/
def emptySentinels : List PyStr :=
  [codes "na", codes "nan", codes "none", codes "", codes "unclassified"]

/-- `normalize_call` from compare_calls.py: empty-ish values collapse to the
empty string, everything else is stripped then lower-cased. -/
def normalize_call (call : PyStr) : PyStr :=
  if call = [] ∨ pyLower call ∈ emptySentinels then []
  else pyLower (pyStrip call)

/-- `is_empty` from compare_calls.py. -/
def is_empty (call : PyStr) : Bool := normalize_call call = []

/-- `re.split(r':::', s)`: split on each occurrence of the three-colon
separator, scanning left to right (code point 58 is a colon). -/
def splitTriColon : PyStr → List PyStr
  | [] => [[]]
  | 58 :: 58 :: 58 :: rest => [] :: splitTriColon rest
  | c :: rest =>
      match splitTriColon rest with
      | [] => [[c]]
      | h :: t => (c :: h) :: t

/-- `extract_base_plasmid_calls` from compare_calls.py: split the normalized
call on `:::`, strip the parts, and keep the non-empty ones as a set. -/
def extract_base_plasmid_calls (call : PyStr) : Finset PyStr :=
  if is_empty call then ∅
  else (((splitTriColon (normalize_call call)).map pyStrip).filter (· ≠ [])).toFinset

/-- `strip_suffix` from compare_calls.py: strip, then drop the trailing run of
`*` characters (code point 42). -/
def strip_suffix (call : PyStr) : PyStr :=
  ((pyStrip call).reverse.dropWhile (· = 42)).reverse

/-- Leading run of ASCII digits. -/
def leadDigits (s : PyStr) : PyStr := s.takeWhile (fun c => 48 ≤ c ∧ c ≤ 57)

/-- `get_replicon_family` from compare_calls.py: the regex
`^((?:cp|lp)\d+)` applied to the normalized, suffix-stripped call
(`cp` is 99,112 and `lp` is 108,112 in code points). -/
def get_replicon_family (call : PyStr) : Option PyStr :=
  let c := normalize_call (strip_suffix call)
  if c = [] ∨ c = codes "unclassified" then none
  else
    match c with
    | 99 :: 112 :: rest =>
        if leadDigits rest ≠ [] then some (99 :: 112 :: leadDigits rest) else some c
    | 108 :: 112 :: rest =>
        if leadDigits rest ≠ [] then some (108 :: 112 :: leadDigits rest) else some c
    | _ => some c

/-- `categorize` from compare_calls.py.

The source assigns `old_base_calls` / `new_base_calls` but the subsequent
branches read the undefined names `old_base_plasmid_calls` /
`new_base_plasmid_calls`, so execution raises `NameError` as soon as the first
five checks have all failed; none of the later categories can be produced. -/
def categorize (old_call new_call : PyStr) : Except PyExn (String × PyStr) :=
  let old_norm := normalize_call old_call
  let new_norm := normalize_call new_call
  if is_empty old_call ∧ is_empty new_call then .ok ("exact_match", [])
  else if ¬ is_empty old_call ∧ is_empty new_call then .ok ("new_unclassified", pyStrip old_call)
  else if is_empty old_call ∧ ¬ is_empty new_call then .ok ("old_unclassified", pyStrip new_call)
  else if old_norm = new_norm then .ok ("exact_match", pyStrip old_call)
  else if strip_suffix old_norm = strip_suffix new_norm then .ok ("annotation_suffix", pyStrip old_call)
  else
    let _old_base_calls := extract_base_plasmid_calls old_call
    let _new_base_calls := extract_base_plasmid_calls new_call
    .error .nameError

/-- The per-row pipeline of `main` in compare_calls.py before the manual
override step: `old_only`/`new_only` for keys in one table, otherwise
`categorize`, then the two auto-chromosome heuristics (both only fire on the
category `"different"`). -/
def resolveBase (autoBp : Nat) (inOld inNew : Bool)
    (old_call new_call : PyStr) (clen : Nat) : Except PyExn (String × PyStr) := do
  let (cat0, res0) ←
    if ¬ inNew then pure (("old_only" : String), old_call)
    else if ¬ inOld then pure (("new_only" : String), new_call)
    else categorize old_call new_call
  let (cat1, res1) :=
    if 0 < autoBp ∧ cat0 = "different" ∧ normalize_call new_call = codes "chromosome"
        ∧ autoBp ≤ clen
    then (("auto_chromosome" : String), pyStrip new_call) else (cat0, res0)
  let (cat2, res2) :=
    if 0 < autoBp ∧ cat1 = "different" ∧ normalize_call old_call = codes "chromosome"
        ∧ ¬ is_empty new_call ∧ normalize_call new_call ≠ codes "chromosome" ∧ clen < autoBp
    then (("auto_chromosome" : String), pyStrip new_call) else (cat1, res1)
  pure (cat2, res2)

/-- The full per-row pipeline of `main` in compare_calls.py: `resolveBase`
followed by the manual override step (an override forces the resolved call and
turns every category except `exact_match` into `manual_override`). -/
def resolveRow (autoBp : Nat) (overrides : PyStr × PyStr → Option PyStr)
    (key : PyStr × PyStr) (inOld inNew : Bool)
    (old_call new_call : PyStr) (clen : Nat) : Except PyExn (String × PyStr) :=
  match resolveBase autoBp inOld inNew old_call new_call clen with
  | .error e => .error e
  | .ok (cat, res) =>
      match overrides key with
      | some v => .ok ((if cat = "exact_match" then cat else "manual_override"), v)
      | none => .ok (cat, res)

/-! ## add_replicon_to_gml.py -/

/-- Distinct elements of a list in order of first occurrence: the key order of
a Python `Counter`/`dict` built by inserting the list elements in order. -/
def firstOcc : List PyStr → List PyStr
  | [] => []
  | a :: t => a :: (firstOcc t).filter (· ≠ a)

/-- Stable insertion (descending by count): an element moves past exactly the
entries with a strictly larger count, so earlier entries win ties. -/
def insertByCount (p : PyStr × Nat) : List (PyStr × Nat) → List (PyStr × Nat)
  | [] => [p]
  | q :: qs => if q.2 ≤ p.2 then p :: q :: qs else q :: insertByCount p qs

/-- Stable sort, descending by count. -/
def sortByCount : List (PyStr × Nat) → List (PyStr × Nat)
  | [] => []
  | p :: ps => insertByCount p (sortByCount ps)

/-- `Counter(l).most_common()`: (value, count) pairs with counts descending and
ties broken by first-encountered order. -/
def mostCommon (l : List PyStr) : List (PyStr × Nat) :=
  sortByCount ((firstOcc l).map (fun x => (x, l.count x)))

/-- Round to the nearest integer, ties to even (Python `round`). -/
def roundHalfEvenQ (q : ℚ) : ℤ :=
  if q - ⌊q⌋ < 1/2 then ⌊q⌋
  else if 1/2 < q - ⌊q⌋ then ⌊q⌋ + 1
  else if ⌊q⌋ % 2 = 0 then ⌊q⌋ else ⌊q⌋ + 1

/-- Python `round(q, 3)` on an exact rational value. -/
def round3Q (q : ℚ) : ℚ := (roundHalfEvenQ (q * 1000) : ℚ) / 1000

/-- Decimal digits of a natural number, as code points. -/
def natCodes (n : Nat) : PyStr := (Nat.toDigits 10 n).map Char.toNat

/-- The result record of `assign_consensus_replicon`. -/
structure ConsensusResult where
  consensus_replicon : PyStr
  top_replicon : PyStr
  consensus_fraction : ℚ
  n_isolates : Nat
  all_replicons : PyStr
deriving DecidableEq, Repr

/-- `assign_consensus_replicon` from add_replicon_to_gml.py.  The
`consensus_fraction` field is `round(top_count / total, 3)`; the comparison
with the threshold uses the unrounded fraction. -/
def assign_consensus_replicon (replicon_list : List PyStr) (threshold : ℚ) : ConsensusResult :=
  if replicon_list = [] then
    ⟨codes "unknown", codes "unknown", 0, 0, codes "unknown"⟩
  else
    let counts := mostCommon replicon_list
    let total : ℚ := replicon_list.length
    let top := counts.headD ([], 0)
    let fraction : ℚ := (top.2 : ℚ) / total
    ⟨if threshold ≤ fraction then top.1 else codes "multi-replicon",
      top.1, round3Q fraction, replicon_list.length,
      List.intercalate (codes ",")
        (counts.map (fun p => p.1 ++ [40] ++ natCodes p.2 ++ [41]))⟩

/-- Does `pat` start the list `s`? -/
def startsWithSeq : PyStr → PyStr → Bool
  | [], _ => true
  | _ :: _, [] => false
  | p :: ps, c :: cs => p = c && startsWithSeq ps cs

/-- Python `pat in s` (substring test). -/
def containsSeq (pat : PyStr) : PyStr → Bool
  | [] => startsWithSeq pat []
  | c :: rest => startsWithSeq pat (c :: rest) || containsSeq pat rest

/-- Python `s.split(pat)[0]`: everything before the first occurrence of `pat`
(the whole of `s` if `pat` does not occur). -/
def takeBeforeSeq (pat : PyStr) : PyStr → PyStr
  | [] => []
  | c :: rest =>
      if startsWithSeq pat (c :: rest) then [] else c :: takeBeforeSeq pat rest

/-- The regex `^([a-z]+\d+)`: a non-empty run of lowercase letters followed by
a non-empty run of digits. -/
def matchLettersDigits (s : PyStr) : Option PyStr :=
  let letters := s.takeWhile (fun c => 97 ≤ c ∧ c ≤ 122)
  let digits := leadDigits (s.drop letters.length)
  if letters ≠ [] ∧ digits ≠ [] then some (letters ++ digits) else none

/-- `classify_replicon_family` from add_replicon_to_gml.py. -/
def classify_replicon_family (replicon : PyStr) : PyStr :=
  if replicon ∈ [codes "unknown", codes "unmatched", codes "multi-replicon",
      codes "unknownreplicon"] then replicon
  else if replicon = codes "chromosome" then codes "chromosome"
  else
    let viaFusion : Option PyStr :=
      if containsSeq (codes "+") replicon || containsSeq (codes "-cp") replicon
          || containsSeq (codes "-lp") replicon then
        matchLettersDigits
          (takeBeforeSeq (codes "-lp")
            (takeBeforeSeq (codes "-cp") (takeBeforeSeq (codes "+") replicon)))
      else none
    match viaFusion with
    | some fam => fam
    | none =>
        match matchLettersDigits replicon with
        | some fam => fam
        | none => replicon

/-- The family (value, count) pairs of a cluster, in `Counter` key order. -/
def familyPairs (replicon_list : List PyStr) : List (PyStr × Nat) :=
  let fams := replicon_list.map classify_replicon_family
  (firstOcc fams).map (fun x => (x, fams.count x))

/-- The local variable `cross_family_score` computed by
`analyze_family_diversity`: 0 when there are at most one family, otherwise the
base-2 Shannon entropy of the family frequencies divided by `log2(n_families)`
(with the source's guard returning 0 if that denominator is not positive). -/
noncomputable def cross_family_score_raw (replicon_list : List PyStr) : ℝ :=
  let pairs := familyPairs replicon_list
  let total : ℝ := replicon_list.length
  if pairs.length ≤ 1 then 0
  else
    let entropy := -(((pairs.filter (fun p => 0 < p.2)).map
        (fun p => ((p.2 : ℝ) / total) * Real.logb 2 ((p.2 : ℝ) / total))).sum)
    let max_entropy := if 1 < pairs.length then Real.logb 2 pairs.length else 1
    if 0 < max_entropy then entropy / max_entropy else 0

/-- Round to the nearest integer, ties to even (Python `round` on a real). -/
noncomputable def roundHalfEvenR (x : ℝ) : ℤ :=
  if x - ⌊x⌋ < 1/2 then ⌊x⌋
  else if 1/2 < x - ⌊x⌋ then ⌊x⌋ + 1
  else if ⌊x⌋ % 2 = 0 then ⌊x⌋ else ⌊x⌋ + 1

/-- Python `round(x, 3)` on a real value. -/
noncomputable def round3R (x : ℝ) : ℝ := (roundHalfEvenR (x * 1000) : ℝ) / 1000

/-- The result record of `analyze_family_diversity`. -/
structure DiversityResult where
  families : List PyStr
  family_counts : List (PyStr × Nat)
  n_families : Nat
  top_family : PyStr
  top_family_count : Nat
  family_consensus_frac : ℚ
  is_single_family : Bool
  cross_family_score : ℝ

/-- `analyze_family_diversity` from add_replicon_to_gml.py.  The reported
`cross_family_score` and `family_consensus_frac` fields are rounded to three
decimal places. -/
noncomputable def analyze_family_diversity (replicon_list : List PyStr) : DiversityResult :=
  if replicon_list = [] then
    ⟨[], [], 0, codes "unknown", 0, 0, true, 0⟩
  else
    let pairs := familyPairs replicon_list
    let total : ℚ := replicon_list.length
    let top := (sortByCount pairs).headD ([], 0)
    ⟨pairs.map Prod.fst, pairs, pairs.length, top.1, top.2,
      round3Q ((top.2 : ℚ) / total), decide (pairs.length = 1),
      round3R (cross_family_score_raw replicon_list)⟩

/-! ## generate_chromosome_lists.py -/

/-- Helper for `splitWS`: accumulate the current (reversed) token. -/
def splitWSAux : PyStr → PyStr → List PyStr
  | [], acc => if acc = [] then [] else [acc.reverse]
  | c :: rest, acc =>
      if isPySpace c then
        if acc = [] then splitWSAux rest [] else acc.reverse :: splitWSAux rest []
      else splitWSAux rest (c :: acc)

/-- Python `str.split()` with no argument: whitespace-separated tokens, with
no empty tokens. -/
def splitWS (s : PyStr) : List PyStr := splitWSAux s []

/-- `parse_contig_name` from generate_chromosome_lists.py:
`contig_id.strip().split()[0]`; indexing an empty token list raises. -/
def parse_contig_name (contig_id : PyStr) : Except PyExn PyStr :=
  match splitWS (pyStrip contig_id) with
  | [] => .error .indexError
  | t :: _ => .ok t

/-- `infer_topology` from generate_chromosome_lists.py
(`cp` is 99,112 and `lp` is 108,112 in code points). -/
def infer_topology (plasmid_name : PyStr) : PyStr :=
  let n := pyStrip (pyLower plasmid_name)
  match n with
  | 99 :: 112 :: _ => codes "circular"
  | 108 :: 112 :: _ => codes "linear"
  | _ => if n = codes "chromosome" then codes "linear" else codes "linear"

/-- `sanitize_replicon_name` from generate_chromosome_lists.py: replace `+`
(code 43) by `-` (code 45), and rename `chromosome` to `main`. -/
def sanitize_replicon_name (name : PyStr) : PyStr :=
  let replaced := name.map (fun c => if c = 43 then 45 else c)
  if pyLower replaced = codes "chromosome" then codes "main" else replaced

/-- `infer_chromosome_type` from generate_chromosome_lists.py. -/
def infer_chromosome_type (plasmid_name : PyStr) : PyStr :=
  if pyStrip (pyLower plasmid_name) = codes "chromosome"
  then codes "Chromosome" else codes "Plasmid"

/-- Python `str.capitalize()` on one character (ASCII). -/
def upperChar (c : Nat) : Nat := if 97 ≤ c ∧ c ≤ 122 then c - 32 else c

/-- Python `str.capitalize()`. -/
def pyCapitalize : PyStr → PyStr
  | [] => []
  | c :: rest => upperChar c :: pyLower rest

/-- `format_topology` from generate_chromosome_lists.py:
`f"{topology.capitalize()}-{chrom_type}"`. -/
def format_topology (topology chrom_type : PyStr) : PyStr :=
  pyCapitalize topology ++ [45] ++ chrom_type

/-- One classifier row as used by the classified mode: contig id, raw replicon
call, and the already-parsed `contig_len` (0 when unparsable, as in the
source's `except` branch). -/
structure CFrag where
  contig_id : PyStr
  call : PyStr
  clen : Int
deriving DecidableEq, Repr

/-- Is a (stripped) call kept by the classified mode?  The source skips empty
calls and the literal `unclassified` (case-insensitively). -/
def keepCall (c : PyStr) : Bool := ¬ (c = [] ∨ pyLower c = codes "unclassified")

/-- The rows of one assembly that the classified mode places. -/
def keptFrags (frags : List CFrag) : List CFrag :=
  frags.filter (fun f => keepCall (pyStrip f.call))

/-- The rows grouped under one replicon call (`by_replicon[call]`, in row
order). -/
def groupOf (frags : List CFrag) (c : PyStr) : List CFrag :=
  (keptFrags frags).filter (fun f => pyStrip f.call = c)

/-- Python `<` on strings: lexicographic comparison of code points. -/
def lexLt : PyStr → PyStr → Bool
  | [], [] => false
  | [], _ :: _ => true
  | _ :: _, [] => false
  | a :: t1, b :: t2 => if a < b then true else if b < a then false else lexLt t1 t2

/-- Insertion step of the ascending key sort. -/
def insertKey (k : PyStr) : List PyStr → List PyStr
  | [] => [k]
  | q :: qs => if lexLt k q then k :: q :: qs else q :: insertKey k qs

/-- `sorted(...)` over distinct keys. -/
def sortKeys : List PyStr → List PyStr
  | [] => []
  | k :: ks => insertKey k (sortKeys ks)

/-- The iteration order of `sorted(by_replicon.items())`. -/
def classifiedKeys (frags : List CFrag) : List PyStr :=
  sortKeys (firstOcc ((keptFrags frags).map (fun f => pyStrip f.call)))

/-- Stable insertion, descending by `clen`: an element moves past exactly the
entries with a strictly larger length, so Python's stable
`sort(key=..., reverse=True)` order is reproduced. -/
def insertLenDesc (x : CFrag) : List CFrag → List CFrag
  | [] => [x]
  | y :: ys => if y.clen ≤ x.clen then x :: y :: ys else y :: insertLenDesc x ys

/-- `contig_list.sort(key=lambda x: x[0], reverse=True)` (stable). -/
def sortLenDesc : List CFrag → List CFrag
  | [] => []
  | x :: xs => insertLenDesc x (sortLenDesc xs)

/-- Map a fallible function over a list, stopping at the first raise. -/
def mapExcept {α β : Type} (f : α → Except PyExn β) : List α → Except PyExn (List β)
  | [] => .ok []
  | a :: t =>
      match f a with
      | .error e => .error e
      | .ok b =>
          match mapExcept f t with
          | .error e => .error e
          | .ok bs => .ok (b :: bs)

/-- The entries one replicon group contributes in classified mode: the longest
row becomes the single chromosome-list entry, every other row becomes an
unlocalised-list entry under the same sanitized name. -/
def groupEntries (replicon : PyStr) (grp : List CFrag) :
    Except PyExn (List (PyStr × PyStr × PyStr) × List (PyStr × PyStr)) :=
  match sortLenDesc grp with
  | [] => .ok ([], [])
  | p :: rest =>
      match parse_contig_name (pyStrip p.contig_id) with
      | .error e => .error e
      | .ok obj =>
          match mapExcept (fun f =>
              match parse_contig_name (pyStrip f.contig_id) with
              | .error e => .error e
              | .ok o => .ok (o, sanitize_replicon_name replicon)) rest with
          | .error e => .error e
          | .ok unl =>
              .ok ([(obj, sanitize_replicon_name replicon,
                format_topology (infer_topology replicon) (infer_chromosome_type replicon))], unl)

/-- The classified mode of `main` in generate_chromosome_lists.py, for one
assembly: the chromosome-list entries, the unlocalised-list entries, and the
number of unplaced (empty/unclassified) rows. -/
def processClassified (frags : List CFrag) :
    Except PyExn (List (PyStr × PyStr × PyStr) × List (PyStr × PyStr) × Nat) :=
  match mapExcept (fun k => groupEntries k (groupOf frags k)) (classifiedKeys frags) with
  | .error e => .error e
  | .ok parts =>
      .ok ((parts.map Prod.fst).flatten, (parts.map Prod.snd).flatten,
        frags.length - (keptFrags frags).length)

/-- One classifier row as used by the complete mode; the numeric stat columns
are carried as their parse result (`none` when `float(...)` raises). -/
structure SRow where
  contig_id : PyStr
  plasmid_name : PyStr
  ref_covered_length : Option ℚ
  ref_length : Option ℚ
  query_coverage_percent : Option ℚ
  overall_percent_identity : Option ℚ
deriving DecidableEq, Repr

/-- `compute_ref_coverage` from generate_chromosome_lists.py. -/
def compute_ref_coverage (rcl rl : Option ℚ) : Option ℚ :=
  match rcl, rl with
  | some a, some b => if b ≤ 0 then none else some (a / b)
  | _, _ => none

/-- `passes_completeness` from generate_chromosome_lists.py; an unparsable
percentage column is treated as 0. -/
def passes_completeness (row : SRow)
    (ref_cov_thresh query_cov_thresh identity_thresh : ℚ) : Bool :=
  let q_cov := (row.query_coverage_percent.getD 0) / 100
  let ident := (row.overall_percent_identity.getD 0) / 100
  match compute_ref_coverage row.ref_covered_length row.ref_length with
  | none => false
  | some rc =>
      decide (ref_cov_thresh ≤ rc) && decide (query_cov_thresh ≤ q_cov)
        && decide (identity_thresh ≤ ident)

/-- The complete mode of `main` in generate_chromosome_lists.py, for one
assembly: rows with empty ids are skipped, rows passing the thresholds get a
chromosome-list entry, failing rows are only counted; nothing is ever added to
the unlocalised list. -/
def processComplete (rows : List SRow) (t1 t2 t3 : ℚ) :
    Except PyExn (List (PyStr × PyStr × PyStr) × List (PyStr × PyStr) × Nat) :=
  match rows with
  | [] => .ok ([], [], 0)
  | r :: rs =>
      let cid := pyStrip r.contig_id
      let pname := pyStrip r.plasmid_name
      if cid = [] ∨ pname = [] then processComplete rs t1 t2 t3
      else if passes_completeness r t1 t2 t3 then
        match parse_contig_name cid with
        | .error e => .error e
        | .ok obj =>
            match processComplete rs t1 t2 t3 with
            | .error e => .error e
            | .ok (c, u, k) =>
                .ok ((obj, sanitize_replicon_name pname,
                  format_topology (infer_topology pname) (infer_chromosome_type pname)) :: c,
                  u, k)
      else
        match processComplete rs t1 t2 t3 with
        | .error e => .error e
        | .ok (c, u, k) => .ok (c, u, k + 1)

/-- Does the complete mode place this row: ids present and thresholds met. -/
def placedRow (r : SRow) (t1 t2 t3 : ℚ) : Bool :=
  if pyStrip r.contig_id = [] ∨ pyStrip r.plasmid_name = [] then false
  else passes_completeness r t1 t2 t3

/-! ## Supporting lemmas: the Python string primitives -/

theorem lowerChar_idem (c : Nat) : lowerChar (lowerChar c) = lowerChar c := by
  unfold lowerChar
  by_cases h : 65 ≤ c ∧ c ≤ 90
  · rw [if_pos h, if_neg (by omega : ¬ (65 ≤ c + 32 ∧ c + 32 ≤ 90))]
  · rw [if_neg h, if_neg h]

theorem pyLower_idem (s : PyStr) : pyLower (pyLower s) = pyLower s := by
  induction s with
  | nil => rfl
  | cons c t ih =>
      simp only [pyLower, List.map_cons] at ih ⊢
      rw [lowerChar_idem]
      exact congrArg _ ih

theorem isPySpace_lowerChar (c : Nat) : isPySpace (lowerChar c) = isPySpace c := by
  by_cases h : 65 ≤ c ∧ c ≤ 90
  · have h1 : isPySpace (c + 32) = false := by simp [isPySpace]; omega
    have h2 : isPySpace c = false := by simp [isPySpace]; omega
    simp [lowerChar, h, h1, h2]
  · simp [lowerChar, h]

theorem dropWhile_map_space (f : Nat → Nat) (hf : ∀ c, isPySpace (f c) = isPySpace c)
    (s : PyStr) : List.dropWhile isPySpace (s.map f) = (List.dropWhile isPySpace s).map f := by
  induction s with
  | nil => rfl
  | cons c t ih =>
      simp only [List.map_cons, List.dropWhile_cons, hf c]
      cases hc : isPySpace c
      · simp [hc]
      · simp [hc, ih]

theorem stripLeft_pyLower (s : PyStr) : stripLeft (pyLower s) = pyLower (stripLeft s) :=
  dropWhile_map_space lowerChar isPySpace_lowerChar s

theorem stripRight_pyLower (s : PyStr) : stripRight (pyLower s) = pyLower (stripRight s) := by
  unfold stripRight pyLower
  rw [← List.map_reverse, dropWhile_map_space lowerChar isPySpace_lowerChar, List.map_reverse]

theorem pyStrip_pyLower (s : PyStr) : pyStrip (pyLower s) = pyLower (pyStrip s) := by
  unfold pyStrip
  rw [stripLeft_pyLower, stripRight_pyLower]

theorem dropWhile_append_single (p : Nat → Bool) (c : Nat) (hc : p c = false) (xs : List Nat) :
    List.dropWhile p (xs ++ [c]) = List.dropWhile p xs ++ [c] := by
  induction xs with
  | nil => simp [List.dropWhile_cons, hc]
  | cons a t ih =>
      cases ha : p a
      · simp [List.dropWhile_cons, ha]
      · simp [List.dropWhile_cons, ha, ih]

theorem stripRight_cons (c : Nat) (r : PyStr) (hc : isPySpace c = false) :
    stripRight (c :: r) = c :: stripRight r := by
  unfold stripRight
  rw [List.reverse_cons, dropWhile_append_single _ c hc, List.reverse_append]
  simp

theorem stripRight_idem (s : PyStr) : stripRight (stripRight s) = stripRight s := by
  unfold stripRight
  rw [List.reverse_reverse, List.dropWhile_idempotent]

theorem stripLeft_cases (s : PyStr) :
    stripLeft s = [] ∨ ∃ c r, stripLeft s = c :: r ∧ isPySpace c = false := by
  induction s with
  | nil => left; rfl
  | cons a t ih =>
      cases ha : isPySpace a
      · right; exact ⟨a, t, by simp [stripLeft, List.dropWhile_cons, ha], ha⟩
      · simpa [stripLeft, List.dropWhile_cons, ha] using ih

theorem pyStrip_idem (s : PyStr) : pyStrip (pyStrip s) = pyStrip s := by
  unfold pyStrip
  rcases stripLeft_cases s with h | ⟨c, r, h, hc⟩
  · rw [h]; rfl
  · rw [h, stripRight_cons c _ hc]
    have h1 : stripLeft (c :: stripRight r) = c :: stripRight r := by
      simp [stripLeft, List.dropWhile_cons, hc]
    rw [h1, stripRight_cons c _ hc, stripRight_idem]

/-! ## Claims about compare_calls.py -/

/-- C1: on the pair old=`"lp28-4"`, new=`"lp28-4:::lp17"` (old's base tokens a
non-empty subset of new's), `categorize` does not return `extra_annotation` as
the spec states: it raises `NameError`, because the subset checks read the
undefined names `old_base_plasmid_calls`/`new_base_plasmid_calls`. -/
theorem C1_categorize_subset_pair_raises :
    categorize (codes "lp28-4") (codes "lp28-4:::lp17") = .error .nameError := by decide

/-- C2: whenever both calls are non-empty after normalization, the normalized
forms differ, and they still differ after stripping trailing `*`, `categorize`
raises `NameError`; consequently a normal return carries one of the four
categories `exact_match`, `new_unclassified`, `old_unclassified`,
`annotation_suffix`. -/
theorem C2_categorize_raises_or_four_categories :
    (∀ o n : PyStr, is_empty o = false → is_empty n = false →
      normalize_call o ≠ normalize_call n →
      strip_suffix (normalize_call o) ≠ strip_suffix (normalize_call n) →
      categorize o n = .error .nameError) ∧
    (∀ (o n : PyStr) (cat : String) (res : PyStr), categorize o n = .ok (cat, res) →
      cat = "exact_match" ∨ cat = "new_unclassified" ∨ cat = "old_unclassified"
        ∨ cat = "annotation_suffix") := by
  constructor
  · intro o n ho hn hnorm hsuf
    simp [categorize, ho, hn, hnorm, hsuf]
  · intro o n cat res h
    unfold categorize at h
    dsimp only at h
    split at h
    · simp_all
    split at h
    · simp_all
    split at h
    · simp_all
    split at h
    · simp_all
    split at h
    · simp_all
    · simp_all

/-- C2 witness: the error branch at `("lp54", "cp26")` and the normal branch at
`("lp54", "lp54")`. -/
theorem C2_witness :
    categorize (codes "lp54") (codes "cp26") = .error .nameError ∧
    (("exact_match" : String) = "exact_match" ∨ ("exact_match" : String) = "new_unclassified"
      ∨ ("exact_match" : String) = "old_unclassified"
      ∨ ("exact_match" : String) = "annotation_suffix") :=
  ⟨C2_categorize_raises_or_four_categories.1 (codes "lp54") (codes "cp26")
      (by decide) (by decide) (by decide) (by decide),
    C2_categorize_raises_or_four_categories.2 (codes "lp54") (codes "lp54")
      "exact_match" (codes "lp54") (by decide)⟩

/-- C10: `categorize(c, c)` always returns `exact_match`, with empty resolution
for empty/unclassified calls and the trimmed call otherwise. -/
theorem C10_categorize_self_exact_match (c : PyStr) :
    categorize c c = .ok ("exact_match", if is_empty c then [] else pyStrip c) := by
  by_cases h : is_empty c = true
  · simp [categorize, h]
  · simp [categorize, h]

/-- C4: with the auto-chromosome threshold 100000, the fragment
old=`"plasmid_x"`, new=`"chromosome"`, length 200000 is not assigned
`auto_chromosome` as the spec states: `categorize` raises `NameError` before
the heuristic (which only fires on the unreachable category `"different"`) can
apply. -/
theorem C4_auto_chromosome_unreachable :
    resolveRow 100000 (fun _ => none) (codes "asm", codes "ctg") true true
      (codes "plasmid_x") (codes "chromosome") 200000 = .error .nameError := by decide

/-- C5: if a fragment key is present in the manual-override table and the row
pipeline returns normally, the resolved call equals the override value and the
category is `manual_override`, except that a pre-override `exact_match`
category is kept. -/
theorem C5_manual_override_wins (autoBp : Nat) (ovr : PyStr × PyStr → Option PyStr)
    (key : PyStr × PyStr) (inOld inNew : Bool) (o n : PyStr) (clen : Nat)
    (v : PyStr) (cat : String) (res : PyStr)
    (hov : ovr key = some v)
    (h : resolveRow autoBp ovr key inOld inNew o n clen = .ok (cat, res)) :
    res = v ∧ (cat = "exact_match" ∨ cat = "manual_override") ∧
    (∀ (cat0 : String) (res0 : PyStr),
      resolveBase autoBp inOld inNew o n clen = .ok (cat0, res0) →
      (cat = "exact_match" ↔ cat0 = "exact_match")) := by
  unfold resolveRow at h
  cases hb : resolveBase autoBp inOld inNew o n clen with
  | error e => rw [hb] at h; exact absurd h (by simp)
  | ok pr =>
      obtain ⟨c0, r0⟩ := pr
      rw [hb, hov] at h
      simp only [Except.ok.injEq, Prod.mk.injEq] at h
      obtain ⟨hcat, hres⟩ := h
      refine ⟨hres.symm, ?_, ?_⟩
      · by_cases hc : c0 = "exact_match"
        · left; rw [← hcat, if_pos hc, hc]
        · right; rw [← hcat, if_neg hc]
      · intro cat0 res0 h0
        simp only [Except.ok.injEq, Prod.mk.injEq] at h0
        obtain ⟨hc0, _⟩ := h0
        constructor
        · intro hcm
          by_cases hc : c0 = "exact_match"
          · rw [← hc0]; exact hc
          · rw [← hcat, if_neg hc] at hcm; exact absurd hcm (by decide)
        · intro hc0m
          rw [← hc0] at hc0m
          rw [← hcat, if_pos hc0m]; exact hc0m

/-- C5 witness: an override on a key seen only in the old table turns
`old_only` into `manual_override` with the override value. -/
theorem C5_witness :
    codes "lp17" = codes "lp17" ∧
    (("manual_override" : String) = "exact_match" ∨
      ("manual_override" : String) = "manual_override") ∧
    (∀ (cat0 : String) (res0 : PyStr),
      resolveBase 0 true false (codes "lp28-4") (codes "") 0 = .ok (cat0, res0) →
      (("manual_override" : String) = "exact_match" ↔ cat0 = "exact_match")) :=
  C5_manual_override_wins 0
    (fun k => if k = (codes "a1", codes "c1") then some (codes "lp17") else none)
    (codes "a1", codes "c1") true false (codes "lp28-4") (codes "") 0 (codes "lp17")
    "manual_override" (codes "lp17") (by decide) (by decide)

/-- C3: the sentinel values (empty, `na`, `nan`, `none`, `unclassified`,
case-insensitively) normalize to the empty sentinel, and `normalize_call` is
idempotent except on inputs that escape the sentinel check while stripping to
a non-empty sentinel word (e.g. `" NA "`), where the second application
collapses the result to the empty sentinel. -/
theorem C3_normalize_idempotent_except_stripped_sentinels (x : PyStr) :
    (pyLower x ∈ emptySentinels → normalize_call x = []) ∧
    (¬ (x ≠ [] ∧ pyLower x ∉ emptySentinels ∧ pyLower (pyStrip x) ∈ emptySentinels ∧
        pyLower (pyStrip x) ≠ []) →
      normalize_call (normalize_call x) = normalize_call x) ∧
    ((x ≠ [] ∧ pyLower x ∉ emptySentinels ∧ pyLower (pyStrip x) ∈ emptySentinels ∧
        pyLower (pyStrip x) ≠ []) →
      normalize_call x ≠ [] ∧ normalize_call (normalize_call x) = []) := by
  have hy : ∀ s : PyStr, pyLower (pyStrip (pyLower (pyStrip s))) = pyLower (pyStrip s) := by
    intro s
    rw [pyStrip_pyLower, pyStrip_idem, pyLower_idem]
  have hyl : ∀ s : PyStr, pyLower (pyLower (pyStrip s)) = pyLower (pyStrip s) := fun s =>
    pyLower_idem _
  refine ⟨?_, ?_, ?_⟩
  · intro hx
    simp [normalize_call, hx]
  · intro hcond
    by_cases hx0 : x = []
    · subst hx0; rfl
    · by_cases hxs : pyLower x ∈ emptySentinels
      · simp [normalize_call, hxs]
      · have h1 : normalize_call x = pyLower (pyStrip x) := by
          simp [normalize_call, hx0, hxs]
        by_cases hye : pyLower (pyStrip x) = []
        · rw [h1, hye]; rfl
        · have hys : pyLower (pyStrip x) ∉ emptySentinels := by
            intro hmem
            exact hcond ⟨hx0, hxs, hmem, hye⟩
          rw [h1]
          have h2 : ¬ (pyLower (pyStrip x) = [] ∨
              pyLower (pyLower (pyStrip x)) ∈ emptySentinels) := by
            rw [hyl]
            tauto
          simp only [normalize_call, if_neg h2]
          rw [hy]
  · rintro ⟨hx0, hxs, hmem, hye⟩
    have h1 : normalize_call x = pyLower (pyStrip x) := by
      simp [normalize_call, hx0, hxs]
    constructor
    · rw [h1]; exact hye
    · rw [h1]
      have h2 : pyLower (pyLower (pyStrip x)) ∈ emptySentinels := by rw [hyl]; exact hmem
      simp [normalize_call, h2]

/-- C3 counterexample: `" NA "` normalizes to `"na"`, which normalizes to the
empty sentinel, so `normalize` is not idempotent as claimed. -/
theorem C3_counterexample :
    normalize_call (normalize_call (codes " NA ")) ≠ normalize_call (codes " NA ") := by decide

/-! ## Supporting lemmas: Counter / most_common -/

theorem mem_firstOcc (l : List PyStr) : ∀ x, x ∈ firstOcc l ↔ x ∈ l := by
  induction l with
  | nil => intro x; simp [firstOcc]
  | cons a t ih =>
      intro x
      simp only [firstOcc, List.mem_cons, List.mem_filter, ih x]
      by_cases hx : x = a
      · subst hx; simp
      · simp [hx]

theorem firstOcc_ne_nil (l : List PyStr) (hl : l ≠ []) : firstOcc l ≠ [] := by
  cases l with
  | nil => exact absurd rfl hl
  | cons a t => simp [firstOcc]

theorem insertByCount_perm (p : PyStr × Nat) (l : List (PyStr × Nat)) :
    List.Perm (insertByCount p l) (p :: l) := by
  induction l with
  | nil => exact List.Perm.refl _
  | cons q qs ih =>
      unfold insertByCount
      by_cases h : q.2 ≤ p.2
      · rw [if_pos h]
      · rw [if_neg h]
        exact (List.Perm.cons q ih).trans (List.Perm.swap p q qs)

theorem sortByCount_perm (l : List (PyStr × Nat)) : List.Perm (sortByCount l) l := by
  induction l with
  | nil => exact List.Perm.refl _
  | cons p ps ih => exact (insertByCount_perm p _).trans (List.Perm.cons p ih)

theorem sortByCount_ne_nil (l : List (PyStr × Nat)) (hl : l ≠ []) : sortByCount l ≠ [] := by
  intro h
  have hp := sortByCount_perm l
  rw [h] at hp
  exact hl (List.Perm.eq_nil hp.symm)

theorem headD_mem {α : Type} (l : List α) (d : α) (hl : l ≠ []) : l.headD d ∈ l := by
  cases l with
  | nil => exact absurd rfl hl
  | cons a t => exact List.mem_cons_self a t

theorem insertByCount_headD (x : PyStr × Nat) (s : List (PyStr × Nat)) :
    ((insertByCount x s).headD ([], 0) = x ∧ (s = [] ∨ (s.headD ([], 0)).2 ≤ x.2)) ∨
    ((insertByCount x s).headD ([], 0) = s.headD ([], 0) ∧ x.2 < (s.headD ([], 0)).2) := by
  cases s with
  | nil => left; exact ⟨rfl, Or.inl rfl⟩
  | cons q qs =>
      by_cases h : q.2 ≤ x.2
      · left
        constructor
        · simp [insertByCount, if_pos h]
        · right; simpa using h
      · right
        constructor
        · simp [insertByCount, if_neg h]
        · simp only [List.headD_cons]
          omega

theorem sortByCount_headD_max (l : List (PyStr × Nat)) :
    ∀ p ∈ l, p.2 ≤ ((sortByCount l).headD ([], 0)).2 := by
  induction l with
  | nil => intro p hp; cases hp
  | cons q qs ih =>
      intro p hp
      have hsort : sortByCount (q :: qs) = insertByCount q (sortByCount qs) := rfl
      rcases insertByCount_headD q (sortByCount qs) with ⟨h1, h2⟩ | ⟨h1, h2⟩
      · rw [hsort, h1]
        rcases List.mem_cons.mp hp with rfl | hp'
        · exact Nat.le_refl _
        · rcases h2 with hnil | hle
          · have hq : qs = [] := by
              have hperm := sortByCount_perm qs
              rw [hnil] at hperm
              exact List.Perm.eq_nil hperm.symm
            subst hq
            cases hp'
          · exact le_trans (ih p hp') hle
      · rw [hsort, h1]
        rcases List.mem_cons.mp hp with rfl | hp'
        · exact Nat.le_of_lt h2
        · exact ih p hp'

theorem sortByCount_head_decomp (l : List (PyStr × Nat)) (hl : l ≠ []) :
    ∃ pre post, l = pre ++ ((sortByCount l).headD ([], 0)) :: post ∧
      ∀ q ∈ pre, q.2 < ((sortByCount l).headD ([], 0)).2 := by
  induction l with
  | nil => exact absurd rfl hl
  | cons q qs ih =>
      have hsort : sortByCount (q :: qs) = insertByCount q (sortByCount qs) := rfl
      by_cases hqs : qs = []
      · subst hqs
        exact ⟨[], [], rfl, by intro r hr; cases hr⟩
      · obtain ⟨pre', post', hdec, hlt⟩ := ih hqs
        rcases insertByCount_headD q (sortByCount qs) with ⟨h1, _⟩ | ⟨h1, h2⟩
        · rw [hsort, h1]
          exact ⟨[], qs, rfl, by intro r hr; cases hr⟩
        · rw [hsort, h1]
          refine ⟨q :: pre', post', ?_, ?_⟩
          · rw [List.cons_append, ← hdec]
          · intro r hr
            rcases List.mem_cons.mp hr with rfl | hr'
            · exact h2
            · exact hlt r hr'

theorem map_head_decomp {α β : Type} (f : α → β) :
    ∀ (L : List α) (pre : List β) (h : β) (post : List β),
      L.map f = pre ++ h :: post →
      ∃ pre₀ x post₀, L = pre₀ ++ x :: post₀ ∧ f x = h ∧ pre₀.map f = pre := by
  intro L pre
  induction pre generalizing L with
  | nil =>
      intro h post heq
      cases L with
      | nil => simp at heq
      | cons a t =>
          simp only [List.map_cons, List.nil_append, List.cons.injEq] at heq
          exact ⟨[], a, t, rfl, heq.1, rfl⟩
  | cons p pre' ih =>
      intro h post heq
      cases L with
      | nil => simp at heq
      | cons a t =>
          simp only [List.map_cons, List.cons_append, List.cons.injEq] at heq
          obtain ⟨pre₀, x, post₀, h1, h2, h3⟩ := ih t h post heq.2
          exact ⟨a :: pre₀, x, post₀, by rw [List.cons_append, ← h1],
            h2, by simp [h3, heq.1]⟩

/-- The head of `most_common` is a most frequent element, and among the equally
frequent ones it is the first encountered. -/
theorem mostCommon_head_spec (l : List PyStr) (hl : l ≠ []) :
    ((mostCommon l).headD ([], 0)).1 ∈ l ∧
    ((mostCommon l).headD ([], 0)).2 = l.count ((mostCommon l).headD ([], 0)).1 ∧
    (∀ x ∈ l, l.count x ≤ ((mostCommon l).headD ([], 0)).2) ∧
    (∃ pre post, firstOcc l = pre ++ ((mostCommon l).headD ([], 0)).1 :: post ∧
      ∀ y ∈ pre, l.count y < ((mostCommon l).headD ([], 0)).2) := by
  have hne : (firstOcc l).map (fun x => (x, l.count x)) ≠ [] := by
    intro h
    exact firstOcc_ne_nil l hl (List.map_eq_nil_iff.mp h)
  have hmem : (mostCommon l).headD ([], 0) ∈ (firstOcc l).map (fun x => (x, l.count x)) :=
    (sortByCount_perm _).mem_iff.mp (headD_mem _ _ (sortByCount_ne_nil _ hne))
  obtain ⟨x, hx, hxx⟩ := List.mem_map.mp hmem
  refine ⟨?_, ?_, ?_, ?_⟩
  · rw [← hxx]
    exact (mem_firstOcc l x).mp hx
  · rw [← hxx]
  · intro y hy
    have hyp : (y, l.count y) ∈ (firstOcc l).map (fun x => (x, l.count x)) :=
      List.mem_map.mpr ⟨y, (mem_firstOcc l y).mpr hy, rfl⟩
    exact sortByCount_headD_max _ _ hyp
  · obtain ⟨pre, post, hdec, hlt⟩ := sortByCount_head_decomp _ hne
    obtain ⟨pre₀, z, post₀, h1, h2, h3⟩ := map_head_decomp _ (firstOcc l) pre _ post hdec
    have hz : ((mostCommon l).headD ([], 0)).1 = z := by
      have hmc : (mostCommon l).headD ([], 0) =
          (sortByCount ((firstOcc l).map (fun x => (x, l.count x)))).headD ([], 0) := rfl
      rw [hmc, ← h2]
    refine ⟨pre₀, post₀, ?_, ?_⟩
    · rw [h1, hz]
    · intro y hy
      have hmem2 : (y, l.count y) ∈ pre := by
        rw [← h3]
        exact List.mem_map.mpr ⟨y, hy, rfl⟩
      exact hlt _ hmem2

/-! ## Claims about add_replicon_to_gml.py: consensus -/

/-- C6 (amended): for a non-empty cluster, `top_replicon` is the most frequent
call with ties broken by first-encountered order, `consensus_replicon` is
`top_replicon` iff the exact fraction `top_count / N` reaches the threshold
(else `multi-replicon`), and the reported `consensus_fraction` is
`round(top_count / N, 3)`; the empty cluster yields the `unknown` sentinels
with fraction 0; the spec's two 9:1 examples hold. -/
theorem C6_consensus_amended (l : List PyStr) (τ : ℚ) :
    (l = [] → assign_consensus_replicon l τ =
      ⟨codes "unknown", codes "unknown", 0, 0, codes "unknown"⟩) ∧
    (l ≠ [] →
      (assign_consensus_replicon l τ).top_replicon ∈ l ∧
      (assign_consensus_replicon l τ).n_isolates = l.length ∧
      (∀ x ∈ l, l.count x ≤ l.count (assign_consensus_replicon l τ).top_replicon) ∧
      (∃ pre post,
        firstOcc l = pre ++ (assign_consensus_replicon l τ).top_replicon :: post ∧
        ∀ y ∈ pre, l.count y < l.count (assign_consensus_replicon l τ).top_replicon) ∧
      (assign_consensus_replicon l τ).consensus_fraction =
        round3Q ((l.count (assign_consensus_replicon l τ).top_replicon : ℚ) / (l.length : ℚ)) ∧
      (assign_consensus_replicon l τ).consensus_replicon =
        (if τ ≤ (l.count (assign_consensus_replicon l τ).top_replicon : ℚ) / (l.length : ℚ)
          then (assign_consensus_replicon l τ).top_replicon else codes "multi-replicon")) ∧
    (assign_consensus_replicon (List.replicate 9 (codes "lp54") ++ [codes "lp17"])
        (9/10)).consensus_replicon = codes "lp54" ∧
    (assign_consensus_replicon (List.replicate 9 (codes "lp54") ++ [codes "lp17"])
        (9/10)).consensus_fraction = 9/10 ∧
    (assign_consensus_replicon (List.replicate 9 (codes "lp54") ++ [codes "lp17"])
        (95/100)).consensus_replicon = codes "multi-replicon" := by
  have hne9 : List.replicate 9 (codes "lp54") ++ [codes "lp17"] ≠ [] := by decide
  have htop9 : (mostCommon (List.replicate 9 (codes "lp54") ++ [codes "lp17"])).headD ([], 0)
      = (codes "lp54", 9) := by decide
  have hlen9 : (List.replicate 9 (codes "lp54") ++ [codes "lp17"]).length = 10 := by decide
  refine ⟨?_, ?_, ?_, ?_, ?_⟩
  · intro h
    subst h
    rfl
  rotate_left
  · simp only [assign_consensus_replicon, if_neg hne9, htop9, hlen9]
    norm_num
  · simp only [assign_consensus_replicon, if_neg hne9, htop9, hlen9]
    norm_num [round3Q, roundHalfEvenQ]
  · simp only [assign_consensus_replicon, if_neg hne9, htop9, hlen9]
    norm_num
  · intro hl
    obtain ⟨hmem, hcount, hmax, pre, post, hdec, hlt⟩ := mostCommon_head_spec l hl
    have htop : (assign_consensus_replicon l τ).top_replicon =
        ((mostCommon l).headD ([], 0)).1 := by
      simp [assign_consensus_replicon, hl]
    have hni : (assign_consensus_replicon l τ).n_isolates = l.length := by
      simp [assign_consensus_replicon, hl]
    have hfr : (assign_consensus_replicon l τ).consensus_fraction =
        round3Q ((((mostCommon l).headD ([], 0)).2 : ℚ) / (l.length : ℚ)) := by
      simp [assign_consensus_replicon, hl]
    have hcr : (assign_consensus_replicon l τ).consensus_replicon =
        (if τ ≤ (((mostCommon l).headD ([], 0)).2 : ℚ) / (l.length : ℚ)
          then ((mostCommon l).headD ([], 0)).1 else codes "multi-replicon") := by
      simp [assign_consensus_replicon, hl]
    refine ⟨?_, hni, ?_, ?_, ?_, ?_⟩
    · rw [htop]; exact hmem
    · intro x hx
      rw [htop, ← hcount]
      exact hmax x hx
    · rw [htop]
      refine ⟨pre, post, hdec, ?_⟩
      intro y hy
      rw [← hcount]
      exact hlt y hy
    · rw [hfr, htop, hcount]
    · rw [hcr, htop, hcount]

/-- C6 counterexample: for calls `["lp54","lp54","lp17"]` the claim's
`consensus_fraction = top_count / N` demands `2/3`, but the code reports the
3-decimal rounding `0.667`. -/
theorem C6_counterexample :
    (assign_consensus_replicon [codes "lp54", codes "lp54", codes "lp17"]
        (9/10)).top_replicon = codes "lp54" ∧
    [codes "lp54", codes "lp54", codes "lp17"].count (codes "lp54") = 2 ∧
    (assign_consensus_replicon [codes "lp54", codes "lp54", codes "lp17"]
        (9/10)).consensus_fraction = 667/1000 ∧
    ((667 : ℚ)/1000) ≠ 2/3 := by
  have hne : [codes "lp54", codes "lp54", codes "lp17"] ≠ [] := by decide
  have htop : (mostCommon [codes "lp54", codes "lp54", codes "lp17"]).headD ([], 0)
      = (codes "lp54", 2) := by decide
  have hlen : [codes "lp54", codes "lp54", codes "lp17"].length = 3 := by decide
  refine ⟨?_, by decide, ?_, by norm_num⟩
  · simp only [assign_consensus_replicon, if_neg hne, htop]
  · simp only [assign_consensus_replicon, if_neg hne, htop, hlen]
    norm_num [round3Q, roundHalfEvenQ]

/-- C6 witness: the amended claim instantiated at the empty cluster and at a
concrete two-element cluster. -/
theorem C6_witness :
    (assign_consensus_replicon ([] : List PyStr) (9/10) =
      ⟨codes "unknown", codes "unknown", 0, 0, codes "unknown"⟩) ∧
    ((assign_consensus_replicon [codes "lp54", codes "lp17"] (1/2)).top_replicon
        ∈ [codes "lp54", codes "lp17"] ∧
      (assign_consensus_replicon [codes "lp54", codes "lp17"] (1/2)).n_isolates
        = [codes "lp54", codes "lp17"].length ∧
      (∀ x ∈ [codes "lp54", codes "lp17"],
        [codes "lp54", codes "lp17"].count x ≤
          [codes "lp54", codes "lp17"].count
            (assign_consensus_replicon [codes "lp54", codes "lp17"] (1/2)).top_replicon) ∧
      (∃ pre post,
        firstOcc [codes "lp54", codes "lp17"] =
          pre ++ (assign_consensus_replicon [codes "lp54", codes "lp17"]
            (1/2)).top_replicon :: post ∧
        ∀ y ∈ pre, [codes "lp54", codes "lp17"].count y <
          [codes "lp54", codes "lp17"].count
            (assign_consensus_replicon [codes "lp54", codes "lp17"] (1/2)).top_replicon) ∧
      (assign_consensus_replicon [codes "lp54", codes "lp17"] (1/2)).consensus_fraction =
        round3Q (([codes "lp54", codes "lp17"].count
          (assign_consensus_replicon [codes "lp54", codes "lp17"] (1/2)).top_replicon : ℚ) /
            ([codes "lp54", codes "lp17"].length : ℚ)) ∧
      (assign_consensus_replicon [codes "lp54", codes "lp17"] (1/2)).consensus_replicon =
        (if (1/2 : ℚ) ≤ ([codes "lp54", codes "lp17"].count
            (assign_consensus_replicon [codes "lp54", codes "lp17"] (1/2)).top_replicon : ℚ) /
              ([codes "lp54", codes "lp17"].length : ℚ)
          then (assign_consensus_replicon [codes "lp54", codes "lp17"] (1/2)).top_replicon
          else codes "multi-replicon")) :=
  ⟨(C6_consensus_amended [] (9/10)).1 rfl,
    (C6_consensus_amended [codes "lp54", codes "lp17"] (1/2)).2.1 (by decide)⟩

/-- C3 witness: the three conjuncts of the amended claim at concrete inputs. -/
theorem C3_witness :
    normalize_call (codes "NA") = [] ∧
    normalize_call (normalize_call (codes "lp54")) = normalize_call (codes "lp54") ∧
    (normalize_call (codes " NA ") ≠ [] ∧
      normalize_call (normalize_call (codes " NA ")) = []) :=
  ⟨(C3_normalize_idempotent_except_stripped_sentinels (codes "NA")).1 (by decide),
    (C3_normalize_idempotent_except_stripped_sentinels (codes "lp54")).2.1 (by decide),
    (C3_normalize_idempotent_except_stripped_sentinels (codes " NA ")).2.2 (by decide)⟩

/-! ## Supporting lemmas: classified-mode placement -/

theorem mapExcept_ok_mem {α β : Type} (f : α → Except PyExn β) :
    ∀ (l : List α) (bs : List β), mapExcept f l = .ok bs →
      ∀ a ∈ l, ∃ b, f a = .ok b ∧ b ∈ bs := by
  intro l
  induction l with
  | nil => intro bs _ a ha; cases ha
  | cons x t ih =>
      intro bs h a ha
      cases hx : f x with
      | error e => simp [mapExcept, hx] at h
      | ok b =>
          cases ht : mapExcept f t with
          | error e => simp [mapExcept, hx, ht] at h
          | ok bs' =>
              simp only [mapExcept, hx, ht, Except.ok.injEq] at h
              subst h
              rcases List.mem_cons.mp ha with rfl | ha'
              · exact ⟨b, hx, List.mem_cons_self _ _⟩
              · obtain ⟨b', hb1, hb2⟩ := ih bs' ht a ha'
                exact ⟨b', hb1, List.mem_cons_of_mem _ hb2⟩

theorem insertLenDesc_perm (x : CFrag) (l : List CFrag) :
    List.Perm (insertLenDesc x l) (x :: l) := by
  induction l with
  | nil => exact List.Perm.refl _
  | cons y ys ih =>
      unfold insertLenDesc
      by_cases h : y.clen ≤ x.clen
      · rw [if_pos h]
      · rw [if_neg h]
        exact (List.Perm.cons y ih).trans (List.Perm.swap x y ys)

theorem sortLenDesc_perm (l : List CFrag) : List.Perm (sortLenDesc l) l := by
  induction l with
  | nil => exact List.Perm.refl _
  | cons x xs ih => exact (insertLenDesc_perm x _).trans (List.Perm.cons x ih)

theorem sortLenDesc_ne_nil (l : List CFrag) (hl : l ≠ []) : sortLenDesc l ≠ [] := by
  intro h
  have hp := sortLenDesc_perm l
  rw [h] at hp
  exact hl (List.Perm.eq_nil hp.symm)

theorem insertLenDesc_headD (x : CFrag) (s : List CFrag) :
    ((insertLenDesc x s).headD ⟨[], [], 0⟩ = x ∧
      (s = [] ∨ (s.headD ⟨[], [], 0⟩).clen ≤ x.clen)) ∨
    ((insertLenDesc x s).headD ⟨[], [], 0⟩ = s.headD ⟨[], [], 0⟩ ∧
      x.clen < (s.headD ⟨[], [], 0⟩).clen) := by
  cases s with
  | nil => left; exact ⟨rfl, Or.inl rfl⟩
  | cons y ys =>
      by_cases h : y.clen ≤ x.clen
      · left
        constructor
        · simp [insertLenDesc, if_pos h]
        · right; simpa using h
      · right
        constructor
        · simp [insertLenDesc, if_neg h]
        · simp only [List.headD_cons]
          omega

theorem sortLenDesc_headD_max (l : List CFrag) :
    ∀ p ∈ l, p.clen ≤ ((sortLenDesc l).headD ⟨[], [], 0⟩).clen := by
  induction l with
  | nil => intro p hp; cases hp
  | cons q qs ih =>
      intro p hp
      have hsort : sortLenDesc (q :: qs) = insertLenDesc q (sortLenDesc qs) := rfl
      rcases insertLenDesc_headD q (sortLenDesc qs) with ⟨h1, h2⟩ | ⟨h1, h2⟩
      · rw [hsort, h1]
        rcases List.mem_cons.mp hp with rfl | hp'
        · exact le_refl _
        · rcases h2 with hnil | hle
          · have hq : qs = [] := by
              have hperm := sortLenDesc_perm qs
              rw [hnil] at hperm
              exact List.Perm.eq_nil hperm.symm
            subst hq
            cases hp'
          · exact le_trans (ih p hp') hle
      · rw [hsort, h1]
        rcases List.mem_cons.mp hp with rfl | hp'
        · exact le_of_lt h2
        · exact ih p hp'

theorem insertKey_perm (k : PyStr) (l : List PyStr) :
    List.Perm (insertKey k l) (k :: l) := by
  induction l with
  | nil => exact List.Perm.refl _
  | cons q qs ih =>
      unfold insertKey
      by_cases h : lexLt k q = true
      · rw [if_pos h]
      · rw [if_neg h]
        exact (List.Perm.cons q ih).trans (List.Perm.swap k q qs)

theorem sortKeys_perm (l : List PyStr) : List.Perm (sortKeys l) l := by
  induction l with
  | nil => exact List.Perm.refl _
  | cons k ks ih => exact (insertKey_perm k _).trans (List.Perm.cons k ih)

theorem mem_classifiedKeys (frags : List CFrag) (c : PyStr) :
    c ∈ classifiedKeys frags ↔ c ∈ (keptFrags frags).map (fun f => pyStrip f.call) := by
  unfold classifiedKeys
  rw [(sortKeys_perm _).mem_iff, mem_firstOcc]

theorem groupOf_ne_nil (frags : List CFrag) (c : PyStr)
    (hc : c ∈ classifiedKeys frags) : groupOf frags c ≠ [] := by
  rw [mem_classifiedKeys] at hc
  obtain ⟨f, hf, hfc⟩ := List.mem_map.mp hc
  intro h
  have hmem : f ∈ groupOf frags c := List.mem_filter.mpr ⟨hf, by simp [hfc]⟩
  rw [h] at hmem
  cases hmem

/-! ## Claim about generate_chromosome_lists.py: classified mode -/

/-- C8: in classified mode every kept replicon call contributes exactly one
chromosome-list entry, generated from a longest fragment of its group, while
all the other members of the group land in the unlocalised list under the same
sanitized name; and the spec's three-fragment example produces exactly the
stated lists. -/
theorem C8_classified_longest_primary :
    (∀ (frags : List CFrag) (c : PyStr) (chrom : List (PyStr × PyStr × PyStr))
        (unloc : List (PyStr × PyStr)) (unp : Nat),
      c ∈ classifiedKeys frags →
      processClassified frags = .ok (chrom, unloc, unp) →
      ∃ primary rest, sortLenDesc (groupOf frags c) = primary :: rest ∧
        List.Perm (primary :: rest) (groupOf frags c) ∧
        (∀ m ∈ groupOf frags c, m.clen ≤ primary.clen) ∧
        (∃ obj, parse_contig_name (pyStrip primary.contig_id) = .ok obj ∧
          (obj, sanitize_replicon_name c,
            format_topology (infer_topology c) (infer_chromosome_type c)) ∈ chrom) ∧
        (∀ m ∈ rest, ∃ o, parse_contig_name (pyStrip m.contig_id) = .ok o ∧
          (o, sanitize_replicon_name c) ∈ unloc)) ∧
    processClassified
        [⟨codes "A", codes "lp54", 1000⟩, ⟨codes "B", codes "lp54", 400⟩,
          ⟨codes "C", codes "chromosome", 900⟩] =
      .ok ([(codes "C", codes "main", codes "Linear-Chromosome"),
            (codes "A", codes "lp54", codes "Linear-Plasmid")],
        [(codes "B", codes "lp54")], 0) := by
  constructor
  · intro frags c chrom unloc unp hc h
    unfold processClassified at h
    cases hm : mapExcept (fun k => groupEntries k (groupOf frags k)) (classifiedKeys frags) with
    | error e => rw [hm] at h; cases h
    | ok parts =>
        rw [hm] at h
        simp only [Except.ok.injEq, Prod.mk.injEq] at h
        obtain ⟨hchrom, hunloc, _⟩ := h
        obtain ⟨b, hb, hbparts⟩ := mapExcept_ok_mem _ _ _ hm c hc
        have hgne : groupOf frags c ≠ [] := groupOf_ne_nil frags c hc
        have hsne : sortLenDesc (groupOf frags c) ≠ [] := sortLenDesc_ne_nil _ hgne
        cases hs : sortLenDesc (groupOf frags c) with
        | nil => exact absurd hs hsne
        | cons primary rest =>
            have hb2 : ((match parse_contig_name (pyStrip primary.contig_id) with
                | Except.error e => Except.error e
                | Except.ok obj =>
                    match mapExcept (fun f : CFrag =>
                        ((match parse_contig_name (pyStrip f.contig_id) with
                        | Except.error e => Except.error e
                        | Except.ok o => Except.ok (o, sanitize_replicon_name c)) :
                          Except PyExn (PyStr × PyStr))) rest with
                    | Except.error e => Except.error e
                    | Except.ok unl => Except.ok ([(obj, sanitize_replicon_name c,
                        format_topology (infer_topology c) (infer_chromosome_type c))], unl)) :
                  Except PyExn (List (PyStr × PyStr × PyStr) × List (PyStr × PyStr))) =
                Except.ok b := by
              rw [← hb]
              unfold groupEntries
              rw [hs]
            split at hb2
            · exact absurd hb2 (by simp)
            · rename_i obj hp
              split at hb2
              · exact absurd hb2 (by simp)
              · rename_i unl hmu
                simp only [Except.ok.injEq] at hb2
                subst hb2
                refine ⟨primary, rest, rfl, ?_, ?_, ?_, ?_⟩
                · have hperm := sortLenDesc_perm (groupOf frags c)
                  rw [hs] at hperm
                  exact hperm
                · intro m hm2
                  have hmax := sortLenDesc_headD_max (groupOf frags c) m hm2
                  rw [hs] at hmax
                  exact hmax
                · refine ⟨obj, hp, ?_⟩
                  rw [← hchrom]
                  rw [List.mem_flatten]
                  refine ⟨[(obj, sanitize_replicon_name c,
                    format_topology (infer_topology c) (infer_chromosome_type c))], ?_, ?_⟩
                  · exact List.mem_map.mpr ⟨_, hbparts, rfl⟩
                  · exact List.mem_singleton.mpr rfl
                · intro m hm2
                  obtain ⟨bb, hbb, hbbu⟩ := mapExcept_ok_mem _ _ _ hmu m hm2
                  cases hpm : parse_contig_name (pyStrip m.contig_id) with
                  | error e => rw [hpm] at hbb; cases hbb
                  | ok o =>
                      rw [hpm] at hbb
                      simp only [Except.ok.injEq] at hbb
                      subst hbb
                      refine ⟨o, rfl, ?_⟩
                      rw [← hunloc]
                      rw [List.mem_flatten]
                      exact ⟨unl, List.mem_map.mpr ⟨_, hbparts, rfl⟩, hbbu⟩
  · decide

/-- C8 witness: the general classified-mode property instantiated on the
spec's three-fragment assembly at the call `"lp54"`. -/
theorem C8_witness :
    ∃ primary rest,
      sortLenDesc (groupOf
        [⟨codes "A", codes "lp54", 1000⟩, ⟨codes "B", codes "lp54", 400⟩,
          ⟨codes "C", codes "chromosome", 900⟩] (codes "lp54")) = primary :: rest ∧
      List.Perm (primary :: rest)
        (groupOf [⟨codes "A", codes "lp54", 1000⟩, ⟨codes "B", codes "lp54", 400⟩,
          ⟨codes "C", codes "chromosome", 900⟩] (codes "lp54")) ∧
      (∀ m ∈ groupOf [⟨codes "A", codes "lp54", 1000⟩, ⟨codes "B", codes "lp54", 400⟩,
          ⟨codes "C", codes "chromosome", 900⟩] (codes "lp54"), m.clen ≤ primary.clen) ∧
      (∃ obj, parse_contig_name (pyStrip primary.contig_id) = .ok obj ∧
        (obj, sanitize_replicon_name (codes "lp54"),
          format_topology (infer_topology (codes "lp54"))
            (infer_chromosome_type (codes "lp54"))) ∈
          [(codes "C", codes "main", codes "Linear-Chromosome"),
            (codes "A", codes "lp54", codes "Linear-Plasmid")]) ∧
      (∀ m ∈ rest, ∃ o, parse_contig_name (pyStrip m.contig_id) = .ok o ∧
        (o, sanitize_replicon_name (codes "lp54")) ∈ [(codes "B", codes "lp54")]) :=
  C8_classified_longest_primary.1
    [⟨codes "A", codes "lp54", 1000⟩, ⟨codes "B", codes "lp54", 400⟩,
      ⟨codes "C", codes "chromosome", 900⟩] (codes "lp54")
    [(codes "C", codes "main", codes "Linear-Chromosome"),
      (codes "A", codes "lp54", codes "Linear-Plasmid")]
    [(codes "B", codes "lp54")] 0 (by decide) (by decide)

/-! ## Claim about generate_chromosome_lists.py: complete mode -/

theorem compute_ref_coverage_some (rcl rl : Option ℚ) (rc : ℚ) :
    compute_ref_coverage rcl rl = some rc ↔
      ∃ a b, rcl = some a ∧ rl = some b ∧ 0 < b ∧ a / b = rc := by
  cases rcl with
  | none => simp [compute_ref_coverage]
  | some a =>
      cases rl with
      | none => simp [compute_ref_coverage]
      | some b =>
          simp only [compute_ref_coverage, Option.some.injEq]
          split_ifs with hb
          · constructor
            · intro h; cases h
            · rintro ⟨a', b', rfl, rfl, hb0, _⟩
              exact absurd hb0 (not_lt.mpr hb)
          · simp only [Option.some.injEq]
            constructor
            · intro h
              exact ⟨a, b, rfl, rfl, by linarith [not_le.mp hb], h⟩
            · rintro ⟨a', b', rfl, rfl, _, hrc⟩
              exact hrc

/-- C9: in complete mode a fragment passes exactly when its reference coverage
(covered / reference, with the reference length parsed and positive) reaches
`ref_cov_thresh`, its query coverage percent / 100 reaches `query_cov_thresh`
and its identity percent / 100 reaches `identity_thresh`; unparsable reference
stats mean the fragment cannot pass; and the complete mode emits exactly one
chromosome-list entry per placed row and never an unlocalised entry. -/
theorem C9_complete_thresholds :
    (∀ (r : SRow) (t1 t2 t3 : ℚ),
      passes_completeness r t1 t2 t3 = true ↔
        ((∃ a b, r.ref_covered_length = some a ∧ r.ref_length = some b ∧
            0 < b ∧ t1 ≤ a / b) ∧
          t2 ≤ (r.query_coverage_percent.getD 0) / 100 ∧
          t3 ≤ (r.overall_percent_identity.getD 0) / 100)) ∧
    (∀ (r : SRow) (t1 t2 t3 : ℚ),
      r.ref_covered_length = none ∨ r.ref_length = none →
      passes_completeness r t1 t2 t3 = false) ∧
    (∀ (rows : List SRow) (t1 t2 t3 : ℚ) (c : List (PyStr × PyStr × PyStr))
        (u : List (PyStr × PyStr)) (k : Nat),
      processComplete rows t1 t2 t3 = .ok (c, u, k) →
      u = [] ∧ c.length = (rows.filter (fun r => placedRow r t1 t2 t3)).length) := by
  refine ⟨?_, ?_, ?_⟩
  · intro r t1 t2 t3
    cases hrc : compute_ref_coverage r.ref_covered_length r.ref_length with
    | none =>
        simp only [passes_completeness, hrc]
        constructor
        · intro h; cases h
        · rintro ⟨⟨a, b, ha, hb, hb0, _⟩, _, _⟩
          rw [(compute_ref_coverage_some r.ref_covered_length r.ref_length (a / b)).mpr
            ⟨a, b, ha, hb, hb0, rfl⟩] at hrc
          cases hrc
    | some rc =>
        obtain ⟨a, b, ha, hb, hb0, hab⟩ :=
          (compute_ref_coverage_some r.ref_covered_length r.ref_length rc).mp hrc
        simp only [passes_completeness, hrc, Bool.and_eq_true, decide_eq_true_eq]
        constructor
        · rintro ⟨⟨h1, h2⟩, h3⟩
          exact ⟨⟨a, b, ha, hb, hb0, by rw [hab]; exact h1⟩, h2, h3⟩
        · rintro ⟨⟨a', b', ha', hb', _, h1⟩, h2, h3⟩
          rw [ha] at ha'
          rw [hb] at hb'
          injection ha' with ha'
          injection hb' with hb'
          subst ha'; subst hb'
          exact ⟨⟨by rw [← hab]; exact h1, h2⟩, h3⟩
  · intro r t1 t2 t3 hor
    rcases hor with h | h
    · simp [passes_completeness, compute_ref_coverage, h]
    · cases hcl : r.ref_covered_length <;>
        simp [passes_completeness, compute_ref_coverage, h, hcl]
  · intro rows t1 t2 t3
    induction rows with
    | nil =>
        intro c u k h
        simp only [processComplete, Except.ok.injEq, Prod.mk.injEq] at h
        obtain ⟨h1, h2, _⟩ := h
        subst h1; subst h2
        exact ⟨rfl, by simp⟩
    | cons r rs ih =>
        intro c u k h
        unfold processComplete at h
        dsimp only at h
        by_cases h1 : pyStrip r.contig_id = [] ∨ pyStrip r.plasmid_name = []
        · rw [if_pos h1] at h
          obtain ⟨hu, hlen⟩ := ih c u k h
          refine ⟨hu, ?_⟩
          rw [hlen]
          have hpl : placedRow r t1 t2 t3 = false := by
            simp [placedRow, h1]
          simp [List.filter_cons, hpl]
        · rw [if_neg h1] at h
          by_cases h2 : passes_completeness r t1 t2 t3 = true
          · rw [if_pos h2] at h
            split at h
            · exact absurd h (by simp)
            · rename_i obj hp
              split at h
              · exact absurd h (by simp)
              · rename_i c' u' k' hrec
                simp only [Except.ok.injEq, Prod.mk.injEq] at h
                obtain ⟨hc, hu, _⟩ := h
                obtain ⟨hu', hlen⟩ := ih c' u' k' hrec
                subst hc
                refine ⟨hu ▸ hu', ?_⟩
                have hpl : placedRow r t1 t2 t3 = true := by
                  simp [placedRow, h1, h2]
                simp [List.filter_cons, hpl, hlen]
          · rw [if_neg h2] at h
            split at h
            · exact absurd h (by simp)
            · rename_i c' u' k' hrec
              simp only [Except.ok.injEq, Prod.mk.injEq] at h
              obtain ⟨hc, hu, _⟩ := h
              obtain ⟨hu', hlen⟩ := ih c' u' k' hrec
              subst hc
              refine ⟨hu ▸ hu', ?_⟩
              have hpl : placedRow r t1 t2 t3 = false := by
                simp only [placedRow, if_neg h1]
                exact Bool.not_eq_true _ ▸ h2
              simp [List.filter_cons, hpl, hlen]

/-- C9 witness: a row with unparsable reference stats never passes, and the
row pipeline on a concrete list yields no unlocalised entries and one entry
per placed row. -/
theorem C9_witness :
    passes_completeness ⟨codes "c1", codes "lp54", none, none, none, none⟩
      (95/100) (90/100) (90/100) = false ∧
    (([] : List (PyStr × PyStr)) = [] ∧
      ([] : List (PyStr × PyStr × PyStr)).length =
        (([] : List SRow).filter
          (fun r => placedRow r (95/100) (90/100) (90/100))).length) :=
  ⟨C9_complete_thresholds.2.1 ⟨codes "c1", codes "lp54", none, none, none, none⟩
      (95/100) (90/100) (90/100) (Or.inl rfl),
    C9_complete_thresholds.2.2 [] (95/100) (90/100) (90/100) [] [] 0 rfl⟩

/-! ## Supporting lemmas: family counting -/

theorem nodup_perm_cons_filter (L : List PyStr) (a : PyStr) (hn : L.Nodup) (ha : a ∈ L) :
    List.Perm L (a :: L.filter (· ≠ a)) := by
  induction L with
  | nil => cases ha
  | cons b L' ih =>
      rw [List.nodup_cons] at hn
      by_cases hb : b = a
      · subst hb
        have hfil : L'.filter (· ≠ b) = L' := by
          apply List.filter_eq_self.mpr
          intro x hx
          have hxb : x ≠ b := fun h => hn.1 (h ▸ hx)
          simpa using hxb
        have hstep : (b :: L').filter (· ≠ b) = L' := by
          simp only [List.filter_cons]
          rw [if_neg (by simp), hfil]
        rw [hstep]
      · have ha' : a ∈ L' := by
          rcases List.mem_cons.mp ha with h | h
          · exact absurd h.symm hb
          · exact h
        have hp := ih hn.2 ha'
        have hstep : (b :: L').filter (· ≠ a) = b :: L'.filter (· ≠ a) := by
          simp [List.filter_cons, hb]
        rw [hstep]
        exact (List.Perm.cons b hp).trans (List.Perm.swap a b _)

theorem firstOcc_nodup (L : List PyStr) : (firstOcc L).Nodup := by
  induction L with
  | nil => simp [firstOcc]
  | cons a t ih =>
      simp only [firstOcc]
      rw [List.nodup_cons]
      constructor
      · intro ha
        have h2 := List.mem_filter.mp ha
        simp at h2
      · exact List.Nodup.filter _ ih

theorem sum_count_firstOcc (L : List PyStr) :
    ((firstOcc L).map (fun x => L.count x)).sum = L.length := by
  induction L with
  | nil => rfl
  | cons a t ih =>
      simp only [firstOcc, List.map_cons, List.sum_cons]
      have hcong : ((firstOcc t).filter (· ≠ a)).map (fun x => (a :: t).count x) =
          ((firstOcc t).filter (· ≠ a)).map (fun x => t.count x) := by
        apply List.map_congr_left
        intro x hx
        have hxa : x ≠ a := by
          have h2 := (List.mem_filter.mp hx).2
          simpa using h2
        exact List.count_cons_of_ne hxa t
      rw [hcong]
      by_cases hat : a ∈ t
      · have haf : a ∈ firstOcc t := (mem_firstOcc t a).mpr hat
        have hperm := nodup_perm_cons_filter (firstOcc t) a (firstOcc_nodup t) haf
        have hsplit : ((firstOcc t).map (fun x => t.count x)).sum =
            t.count a + (((firstOcc t).filter (· ≠ a)).map (fun x => t.count x)).sum := by
          have hp2 := hperm.map (fun x => t.count x)
          rw [hp2.sum_eq]
          simp
        rw [ih] at hsplit
        rw [List.count_cons_self, List.length_cons]
        omega
      · have hfil : (firstOcc t).filter (· ≠ a) = firstOcc t := by
          apply List.filter_eq_self.mpr
          intro x hx
          have hxt : x ∈ t := (mem_firstOcc t x).mp hx
          have hxa : x ≠ a := fun h => hat (h ▸ hxt)
          simpa using hxa
        have hz : t.count a = 0 := List.count_eq_zero.mpr hat
        rw [hfil, ih, List.count_cons_self, List.length_cons]
        omega

theorem familyPairs_counts_pos (l : List PyStr) : ∀ p ∈ familyPairs l, 0 < p.2 := by
  intro p hp
  unfold familyPairs at hp
  obtain ⟨x, hx, rfl⟩ := List.mem_map.mp hp
  exact List.count_pos_iff.mpr ((mem_firstOcc _ x).mp hx)

theorem familyPairs_filter_pos (l : List PyStr) :
    (familyPairs l).filter (fun p => 0 < p.2) = familyPairs l := by
  apply List.filter_eq_self.mpr
  intro p hp
  simpa using familyPairs_counts_pos l p hp

theorem familyPairs_sum_counts (l : List PyStr) :
    ((familyPairs l).map (fun p => p.2)).sum = l.length := by
  unfold familyPairs
  rw [List.map_map]
  have hc : ((fun p : PyStr × Nat => p.2) ∘
      fun x => (x, (l.map classify_replicon_family).count x))
      = fun x => (l.map classify_replicon_family).count x := rfl
  rw [hc, sum_count_firstOcc, List.length_map]

theorem familyPairs_ne_nil (l : List PyStr) (hl : l ≠ []) : familyPairs l ≠ [] := by
  unfold familyPairs
  intro h
  rw [List.map_eq_nil_iff] at h
  have h2 : l.map classify_replicon_family ≠ [] := by
    intro h3
    exact hl (List.map_eq_nil_iff.mp h3)
  exact firstOcc_ne_nil _ h2 h

/-! ## Supporting lemmas: sums of real-valued maps -/

theorem list_sum_map_neg {α : Type} (l : List α) (f : α → ℝ) :
    (l.map (fun x => -(f x))).sum = -((l.map f).sum) := by
  induction l with
  | nil => simp
  | cons a t ih => simp [ih]; ring

theorem list_sum_map_add {α : Type} (l : List α) (f g : α → ℝ) :
    (l.map (fun x => f x + g x)).sum = (l.map f).sum + (l.map g).sum := by
  induction l with
  | nil => simp
  | cons a t ih => simp [ih]; ring

theorem list_sum_map_div {α : Type} (l : List α) (f : α → ℝ) (c : ℝ) :
    (l.map (fun x => f x / c)).sum = (l.map f).sum / c := by
  induction l with
  | nil => simp
  | cons a t ih => simp [ih]; ring

theorem list_sum_map_mul_right {α : Type} (l : List α) (f : α → ℝ) (c : ℝ) :
    (l.map (fun x => f x * c)).sum = (l.map f).sum * c := by
  induction l with
  | nil => simp
  | cons a t ih => simp [ih]; ring

theorem list_sum_map_const {α : Type} (l : List α) (c : ℝ) :
    (l.map (fun _ => c)).sum = l.length * c := by
  induction l with
  | nil => simp
  | cons a t ih =>
      simp [ih]
      ring

/-! ## Supporting lemmas: Shannon entropy bounds -/

theorem list_sum_map_sub {α : Type} (l : List α) (f g : α → ℝ) :
    (l.map (fun x => f x - g x)).sum = (l.map f).sum - (l.map g).sum := by
  induction l with
  | nil => simp
  | cons a t ih => simp [ih]; ring

theorem mem_le_one_of_sum_eq_one (ps : List ℝ) (hpos : ∀ p ∈ ps, 0 < p)
    (hsum : ps.sum = 1) : ∀ p ∈ ps, p ≤ 1 := by
  intro p hp
  calc p ≤ ps.sum := List.single_le_sum (fun x hx => le_of_lt (hpos x hx)) p hp
    _ = 1 := hsum

theorem sum_negMulLog_nonneg (ps : List ℝ) (hpos : ∀ p ∈ ps, 0 < p)
    (hsum : ps.sum = 1) :
    0 ≤ -((ps.map (fun p => p * Real.log p)).sum) := by
  rw [← list_sum_map_neg]
  apply List.sum_nonneg
  intro x hx
  obtain ⟨p, hp, rfl⟩ := List.mem_map.mp hx
  have hp0 := hpos p hp
  have hp1 : p ≤ 1 := mem_le_one_of_sum_eq_one ps hpos hsum p hp
  have hlog : Real.log p ≤ 0 := Real.log_nonpos (le_of_lt hp0) hp1
  have hmul : p * Real.log p ≤ p * 0 := mul_le_mul_of_nonneg_left hlog (le_of_lt hp0)
  rw [mul_zero] at hmul
  linarith

theorem sum_negMulLog_le_log_length (ps : List ℝ) (hpos : ∀ p ∈ ps, 0 < p)
    (hsum : ps.sum = 1) :
    -((ps.map (fun p => p * Real.log p)).sum) ≤ Real.log (ps.length : ℝ) := by
  have hne : ps ≠ [] := by
    intro h
    rw [h] at hsum
    simp at hsum
  have hn0 : 0 < (ps.length : ℝ) := by
    have hlp := List.length_pos.mpr hne
    exact_mod_cast hlp
  have hpt : ∀ p ∈ ps, -(p * Real.log p) ≤
      p * Real.log (ps.length : ℝ) + (1 / (ps.length : ℝ) - p) := by
    intro p hp
    have hp0 := hpos p hp
    have hkey : Real.log (1 / ((ps.length : ℝ) * p)) ≤ 1 / ((ps.length : ℝ) * p) - 1 :=
      Real.log_le_sub_one_of_pos (by positivity)
    have hsplit : Real.log (1 / p) =
        Real.log (ps.length : ℝ) + Real.log (1 / ((ps.length : ℝ) * p)) := by
      rw [← Real.log_mul (by positivity) (by positivity)]
      congr 1
      field_simp
    have hloginv : Real.log (1 / p) = -Real.log p := by
      rw [one_div, Real.log_inv]
    have hmul : p * Real.log (1 / ((ps.length : ℝ) * p)) ≤
        p * (1 / ((ps.length : ℝ) * p) - 1) :=
      mul_le_mul_of_nonneg_left hkey (le_of_lt hp0)
    have hsimp : p * (1 / ((ps.length : ℝ) * p) - 1) = 1 / (ps.length : ℝ) - p := by
      field_simp
      ring
    rw [hsimp] at hmul
    have heq : -(p * Real.log p) = p * Real.log (ps.length : ℝ) +
        p * Real.log (1 / ((ps.length : ℝ) * p)) := by
      have h3 : p * Real.log (1 / p) = -(p * Real.log p) := by
        rw [hloginv]; ring
      rw [← h3, hsplit]; ring
    rw [heq]
    linarith
  have hsum2 : (ps.map (fun p => -(p * Real.log p))).sum ≤
      (ps.map (fun p => p * Real.log (ps.length : ℝ) + (1 / (ps.length : ℝ) - p))).sum :=
    List.sum_le_sum hpt
  rw [list_sum_map_neg] at hsum2
  have hrhs : (ps.map (fun p => p * Real.log (ps.length : ℝ) + (1 / (ps.length : ℝ) - p))).sum
      = Real.log (ps.length : ℝ) := by
    rw [list_sum_map_add]
    have h1 : (ps.map (fun p => p * Real.log (ps.length : ℝ))).sum
        = Real.log (ps.length : ℝ) := by
      rw [list_sum_map_mul_right ps (fun p => p)]
      rw [List.map_id']
      rw [hsum, one_mul]
    have h2 : (ps.map (fun p => 1 / (ps.length : ℝ) - p)).sum = 0 := by
      rw [list_sum_map_sub ps (fun _ => 1 / (ps.length : ℝ)) (fun p => p)]
      rw [list_sum_map_const, List.map_id', hsum]
      field_simp
    rw [h1, h2, add_zero]
  rw [hrhs] at hsum2
  exact hsum2

theorem sum_negMulLog_pos (ps : List ℝ) (hpos : ∀ p ∈ ps, 0 < p) (hsum : ps.sum = 1)
    (h2 : 2 ≤ ps.length) : 0 < -((ps.map (fun p => p * Real.log p)).sum) := by
  cases ps with
  | nil => simp at h2
  | cons p1 rest =>
      cases rest with
      | nil => simp at h2
      | cons p2 rest2 =>
          have hp1 : 0 < p1 := hpos p1 (by simp)
          have hp2 : 0 < p2 := hpos p2 (by simp)
          have hrest : 0 ≤ rest2.sum :=
            List.sum_nonneg (fun x hx => le_of_lt (hpos x (by simp [hx])))
          have hsum2 : p1 + (p2 + rest2.sum) = 1 := by
            simpa [List.sum_cons] using hsum
          have hp1lt : p1 < 1 := by linarith
          have hterm1 : 0 < -(p1 * Real.log p1) := by
            have hlog : Real.log p1 < 0 := Real.log_neg hp1 hp1lt
            have hm := mul_pos hp1 (neg_pos.mpr hlog)
            have heq : p1 * -Real.log p1 = -(p1 * Real.log p1) := by ring
            rw [heq] at hm
            exact hm
          have hrest_nonpos : ((p2 :: rest2).map (fun q => q * Real.log q)).sum ≤ 0 := by
            have h0 : 0 ≤ ((p2 :: rest2).map (fun q => -(q * Real.log q))).sum := by
              apply List.sum_nonneg
              intro x hx
              obtain ⟨q, hq, rfl⟩ := List.mem_map.mp hx
              have hq0 : 0 < q := hpos q (List.mem_cons_of_mem _ hq)
              have hq1 : q ≤ 1 :=
                mem_le_one_of_sum_eq_one _ hpos hsum q (List.mem_cons_of_mem _ hq)
              have hlog : Real.log q ≤ 0 := Real.log_nonpos (le_of_lt hq0) hq1
              have hmul : q * Real.log q ≤ q * 0 := mul_le_mul_of_nonneg_left hlog (le_of_lt hq0)
              rw [mul_zero] at hmul
              linarith
            rw [list_sum_map_neg] at h0
            linarith
          simp only [List.map_cons, List.sum_cons] at hrest_nonpos ⊢
          linarith

theorem list_sum_map_natCast {α : Type} (l : List α) (f : α → ℕ) :
    (l.map (fun x => (f x : ℝ))).sum = ((l.map f).sum : ℝ) := by
  induction l with
  | nil => simp
  | cons a t ih => simp [ih]

theorem cross_family_score_raw_eq_logb (l : List PyStr)
    (hn : 1 < (familyPairs l).length) :
    cross_family_score_raw l =
      -(((familyPairs l).map (fun p =>
          ((p.2 : ℝ) / (l.length : ℝ)) * Real.logb 2 ((p.2 : ℝ) / (l.length : ℝ)))).sum) /
        Real.logb 2 ((familyPairs l).length : ℝ) := by
  have hn1R : (1 : ℝ) < ((familyPairs l).length : ℝ) := by exact_mod_cast hn
  have hlogb_pos : 0 < Real.logb 2 ((familyPairs l).length : ℝ) :=
    Real.logb_pos (by norm_num) hn1R
  simp only [cross_family_score_raw]
  rw [if_neg (by omega), if_pos hn, if_pos hlogb_pos, familyPairs_filter_pos]

theorem cross_family_score_raw_eq_log (l : List PyStr)
    (hn : 1 < (familyPairs l).length) :
    cross_family_score_raw l =
      -(((familyPairs l).map (fun p =>
          ((p.2 : ℝ) / (l.length : ℝ)) * Real.log ((p.2 : ℝ) / (l.length : ℝ)))).sum) /
        Real.log ((familyPairs l).length : ℝ) := by
  have hn1R : (1 : ℝ) < ((familyPairs l).length : ℝ) := by exact_mod_cast hn
  have hc : Real.log 2 ≠ 0 := ne_of_gt (Real.log_pos (by norm_num))
  have hL : Real.log ((familyPairs l).length : ℝ) ≠ 0 := ne_of_gt (Real.log_pos hn1R)
  rw [cross_family_score_raw_eq_logb l hn]
  simp only [Real.logb]
  have hmap : (familyPairs l).map (fun p =>
      ((p.2 : ℝ) / (l.length : ℝ)) * (Real.log ((p.2 : ℝ) / (l.length : ℝ)) / Real.log 2)) =
      (familyPairs l).map (fun p =>
      (((p.2 : ℝ) / (l.length : ℝ)) * Real.log ((p.2 : ℝ) / (l.length : ℝ))) / Real.log 2) := by
    apply List.map_congr_left
    intro p _
    ring
  rw [hmap, list_sum_map_div]
  field_simp
  ring

/-! ## Claim about add_replicon_to_gml.py: family diversity -/

/-- C7 (amended): for a non-empty cluster the unrounded score is 0 iff the
calls map to at most one family, otherwise it is the base-2 Shannon entropy of
the family frequencies divided by `log2(n_families)`, hence always lies in
[0, 1]; a uniform split over 4 distinct families scores exactly 1; the
reported `cross_family_score` field is the 3-decimal rounding of this score. -/
theorem C7_cross_family_score_amended (l : List PyStr) (hl : l ≠ []) :
    (0 ≤ cross_family_score_raw l ∧ cross_family_score_raw l ≤ 1) ∧
    (cross_family_score_raw l = 0 ↔ (familyPairs l).length ≤ 1) ∧
    (1 < (familyPairs l).length →
      cross_family_score_raw l =
        -(((familyPairs l).map (fun p =>
            ((p.2 : ℝ) / (l.length : ℝ)) * Real.logb 2 ((p.2 : ℝ) / (l.length : ℝ)))).sum) /
          Real.logb 2 ((familyPairs l).length : ℝ)) ∧
    (analyze_family_diversity l).cross_family_score = round3R (cross_family_score_raw l) ∧
    cross_family_score_raw [codes "lp54", codes "lp17", codes "cp26", codes "chromosome"]
      = 1 := by
  have hfield : (analyze_family_diversity l).cross_family_score =
      round3R (cross_family_score_raw l) := by
    simp [analyze_family_diversity, hl]
  have hpairs4 : familyPairs [codes "lp54", codes "lp17", codes "cp26", codes "chromosome"] =
      [(codes "lp54", 1), (codes "lp17", 1), (codes "cp26", 1), (codes "chromosome", 1)] := by
    decide
  have hn4 : 1 < (familyPairs
      [codes "lp54", codes "lp17", codes "cp26", codes "chromosome"]).length := by
    rw [hpairs4]
    norm_num
  have hlen4 : ([codes "lp54", codes "lp17", codes "cp26", codes "chromosome"] :
      List PyStr).length = 4 := rfl
  have hlogb4 : Real.logb 2 (4 : ℝ) = 2 := by
    rw [show (4 : ℝ) = 2 ^ (2 : ℕ) by norm_num, Real.logb_pow,
      Real.logb_self_eq_one (by norm_num)]
    norm_num
  have hlogbq : Real.logb 2 ((1 : ℝ)/4) = -2 := by
    rw [one_div, Real.logb_inv, hlogb4]
  have hex : cross_family_score_raw
      [codes "lp54", codes "lp17", codes "cp26", codes "chromosome"] = 1 := by
    rw [cross_family_score_raw_eq_logb _ hn4, hpairs4, hlen4]
    simp only [List.map_cons, List.map_nil, List.sum_cons, List.sum_nil]
    push_cast
    norm_num [hlogbq, hlogb4]
  by_cases hn : (familyPairs l).length ≤ 1
  · have h0 : cross_family_score_raw l = 0 := by
      simp only [cross_family_score_raw]
      rw [if_pos hn]
    refine ⟨⟨by rw [h0], by rw [h0]; norm_num⟩, ?_, ?_, hfield, hex⟩
    · exact ⟨fun _ => hn, fun _ => h0⟩
    · intro h1
      omega
  · push_neg at hn
    have hlen0 : 0 < (l.length : ℝ) := by
      have hlp := List.length_pos.mpr hl
      exact_mod_cast hlp
    have hpos : ∀ q ∈ (familyPairs l).map (fun p => ((p.2 : ℝ) / (l.length : ℝ))), 0 < q := by
      intro q hq
      obtain ⟨p, hp, rfl⟩ := List.mem_map.mp hq
      have hc := familyPairs_counts_pos l p hp
      have hcr : 0 < (p.2 : ℝ) := by exact_mod_cast hc
      exact div_pos hcr hlen0
    have hsum : ((familyPairs l).map (fun p => ((p.2 : ℝ) / (l.length : ℝ)))).sum = 1 := by
      rw [list_sum_map_div, list_sum_map_natCast, familyPairs_sum_counts]
      exact div_self (ne_of_gt hlen0)
    have hlenps : ((familyPairs l).map (fun p => ((p.2 : ℝ) / (l.length : ℝ)))).length
        = (familyPairs l).length := List.length_map _ _
    have hmapcomp : ((familyPairs l).map (fun p => ((p.2 : ℝ) / (l.length : ℝ)))).map
        (fun q => q * Real.log q) =
        (familyPairs l).map (fun p =>
          ((p.2 : ℝ) / (l.length : ℝ)) * Real.log ((p.2 : ℝ) / (l.length : ℝ))) := by
      rw [List.map_map]
      rfl
    have hbridge := cross_family_score_raw_eq_log l hn
    rw [← hmapcomp] at hbridge
    have hEnonneg := sum_negMulLog_nonneg _ hpos hsum
    have hEle := sum_negMulLog_le_log_length _ hpos hsum
    rw [hlenps] at hEle
    have hlogpos : 0 < Real.log ((familyPairs l).length : ℝ) :=
      Real.log_pos (by exact_mod_cast hn)
    have hEpos := sum_negMulLog_pos _ hpos hsum (by rw [hlenps]; omega)
    have hscorepos : 0 < cross_family_score_raw l := by
      rw [hbridge]
      exact div_pos hEpos hlogpos
    refine ⟨⟨?_, ?_⟩, ?_, fun _ => cross_family_score_raw_eq_logb l hn, hfield, hex⟩
    · rw [hbridge]
      exact div_nonneg hEnonneg (le_of_lt hlogpos)
    · rw [hbridge, div_le_one hlogpos]
      exact hEle
    · constructor
      · intro h0
        rw [h0] at hscorepos
        exact absurd hscorepos (lt_irrefl 0)
      · intro hle
        omega

theorem round3R_eleven_twelfths : round3R ((11 : ℝ)/12) = 917/1000 := by
  unfold round3R roundHalfEvenR
  have hprod : (11 : ℝ)/12 * 1000 = 2750/3 := by norm_num
  rw [hprod]
  have hfl : ⌊(2750 : ℝ)/3⌋ = 916 := by norm_num
  rw [hfl]
  rw [if_neg (by push_cast; norm_num), if_pos (by push_cast; norm_num)]
  push_cast
  norm_num

/-- C7 counterexample: a 16-member cluster over 8 families with counts
(4,4,2,2,1,1,1,1) has exact score `11/12`, but the reported
`cross_family_score` field is the rounded `0.917`, so the field does not equal
the entropy divided by `log2(n_families)` as claimed. -/
theorem C7_counterexample :
    cross_family_score_raw
      [codes "lp1", codes "lp1", codes "lp1", codes "lp1",
       codes "lp2", codes "lp2", codes "lp2", codes "lp2",
       codes "lp3", codes "lp3", codes "lp4", codes "lp4",
       codes "lp5", codes "lp6", codes "lp7", codes "lp8"] = 11/12 ∧
    (analyze_family_diversity
      [codes "lp1", codes "lp1", codes "lp1", codes "lp1",
       codes "lp2", codes "lp2", codes "lp2", codes "lp2",
       codes "lp3", codes "lp3", codes "lp4", codes "lp4",
       codes "lp5", codes "lp6", codes "lp7", codes "lp8"]).cross_family_score = 917/1000 ∧
    ((917 : ℝ)/1000) ≠ 11/12 := by
  have hne : ([codes "lp1", codes "lp1", codes "lp1", codes "lp1",
      codes "lp2", codes "lp2", codes "lp2", codes "lp2",
      codes "lp3", codes "lp3", codes "lp4", codes "lp4",
      codes "lp5", codes "lp6", codes "lp7", codes "lp8"] : List PyStr) ≠ [] := by decide
  have hpairs : familyPairs
      [codes "lp1", codes "lp1", codes "lp1", codes "lp1",
       codes "lp2", codes "lp2", codes "lp2", codes "lp2",
       codes "lp3", codes "lp3", codes "lp4", codes "lp4",
       codes "lp5", codes "lp6", codes "lp7", codes "lp8"] =
      [(codes "lp1", 4), (codes "lp2", 4), (codes "lp3", 2), (codes "lp4", 2),
       (codes "lp5", 1), (codes "lp6", 1), (codes "lp7", 1), (codes "lp8", 1)] := by decide
  have hn8 : 1 < (familyPairs
      [codes "lp1", codes "lp1", codes "lp1", codes "lp1",
       codes "lp2", codes "lp2", codes "lp2", codes "lp2",
       codes "lp3", codes "lp3", codes "lp4", codes "lp4",
       codes "lp5", codes "lp6", codes "lp7", codes "lp8"]).length := by
    rw [hpairs]
    norm_num
  have hlen : ([codes "lp1", codes "lp1", codes "lp1", codes "lp1",
      codes "lp2", codes "lp2", codes "lp2", codes "lp2",
      codes "lp3", codes "lp3", codes "lp4", codes "lp4",
      codes "lp5", codes "lp6", codes "lp7", codes "lp8"] : List PyStr).length = 16 := rfl
  have hlogb2 : Real.logb 2 (2 : ℝ) = 1 := Real.logb_self_eq_one (by norm_num)
  have hlogb4 : Real.logb 2 (4 : ℝ) = 2 := by
    rw [show (4 : ℝ) = 2 ^ (2 : ℕ) by norm_num, Real.logb_pow, hlogb2]
    norm_num
  have hlogb8 : Real.logb 2 (8 : ℝ) = 3 := by
    rw [show (8 : ℝ) = 2 ^ (3 : ℕ) by norm_num, Real.logb_pow, hlogb2]
    norm_num
  have hlogb16 : Real.logb 2 (16 : ℝ) = 4 := by
    rw [show (16 : ℝ) = 2 ^ (4 : ℕ) by norm_num, Real.logb_pow, hlogb2]
    norm_num
  have hA : Real.logb 2 ((4 : ℝ)/16) = -2 := by
    rw [show (4 : ℝ)/16 = ((4 : ℝ))⁻¹ by norm_num, Real.logb_inv, hlogb4]
  have hB : Real.logb 2 ((2 : ℝ)/16) = -3 := by
    rw [show (2 : ℝ)/16 = ((8 : ℝ))⁻¹ by norm_num, Real.logb_inv, hlogb8]
  have hC : Real.logb 2 ((1 : ℝ)/16) = -4 := by
    rw [show (1 : ℝ)/16 = ((16 : ℝ))⁻¹ by norm_num, Real.logb_inv, hlogb16]
  have hraw : cross_family_score_raw
      [codes "lp1", codes "lp1", codes "lp1", codes "lp1",
       codes "lp2", codes "lp2", codes "lp2", codes "lp2",
       codes "lp3", codes "lp3", codes "lp4", codes "lp4",
       codes "lp5", codes "lp6", codes "lp7", codes "lp8"] = 11/12 := by
    rw [cross_family_score_raw_eq_logb _ hn8, hpairs, hlen]
    simp only [List.map_cons, List.map_nil, List.sum_cons, List.sum_nil]
    push_cast
    rw [hA, hB, hC]
    norm_num [hlogb8]
  refine ⟨hraw, ?_, by norm_num⟩
  have hfield : (analyze_family_diversity
      [codes "lp1", codes "lp1", codes "lp1", codes "lp1",
       codes "lp2", codes "lp2", codes "lp2", codes "lp2",
       codes "lp3", codes "lp3", codes "lp4", codes "lp4",
       codes "lp5", codes "lp6", codes "lp7", codes "lp8"]).cross_family_score =
      round3R (cross_family_score_raw
      [codes "lp1", codes "lp1", codes "lp1", codes "lp1",
       codes "lp2", codes "lp2", codes "lp2", codes "lp2",
       codes "lp3", codes "lp3", codes "lp4", codes "lp4",
       codes "lp5", codes "lp6", codes "lp7", codes "lp8"]) := by
    simp [analyze_family_diversity, hne]
  rw [hfield, hraw, round3R_eleven_twelfths]

/-- C7 witness: the amended claim instantiated at the single-call cluster
`["lp54"]`. -/
theorem C7_witness :
    (0 ≤ cross_family_score_raw [codes "lp54"] ∧
      cross_family_score_raw [codes "lp54"] ≤ 1) ∧
    (cross_family_score_raw [codes "lp54"] = 0 ↔ (familyPairs [codes "lp54"]).length ≤ 1) ∧
    (1 < (familyPairs [codes "lp54"]).length →
      cross_family_score_raw [codes "lp54"] =
        -(((familyPairs [codes "lp54"]).map (fun p =>
            ((p.2 : ℝ) / (([codes "lp54"] : List PyStr).length : ℝ)) *
              Real.logb 2 ((p.2 : ℝ) / (([codes "lp54"] : List PyStr).length : ℝ)))).sum) /
          Real.logb 2 ((familyPairs [codes "lp54"]).length : ℝ)) ∧
    (analyze_family_diversity [codes "lp54"]).cross_family_score =
      round3R (cross_family_score_raw [codes "lp54"]) ∧
    cross_family_score_raw [codes "lp54", codes "lp17", codes "cp26", codes "chromosome"]
      = 1 :=
  C7_cross_family_score_amended [codes "lp54"] (by decide)
